import Mathlib

/-!
# SHA-256 (`main.go`): shallow embedding and verification

The Go program consists of three functions, `SHA256`, `padData` and `rotr`.
They are embedded here as executable Lean functions.

* a `byte` is `Fin 256`; a `[]byte` is a `List Byte`;
* a `uint32` is a `Nat` kept below `2^32`: every operation that can leave the
  range in Go (addition, left shift) is reduced `% 2^32` explicitly;
* a `uint64` is a `Nat` reduced `% 2^64`, a `uint` (the shift count of `rotr`)
  is a 64-bit unsigned integer, so `32 - n` wraps modulo `2^64`;
* an `int` (lengths and loop counters) is a `Nat`: all `int` expressions of the
  program are sums of a slice length and a constant below 100, and no slice is
  long enough for those to leave the 64-bit range;
* every index expression `xs[i]`, every indexed store and every slice expression
  is checked and yields `none` where Go would panic, so the embedded functions
  return `Option`;
* a `for i := lo; i < hi; i++` loop is `forLoop lo hi body`, which threads the
  loop-carried state through the body for `i = lo, .., hi - 1`.
-/

namespace Sha256

/-! ## Machine model -/

/-- A Go `byte`. -/
abbrev Byte := Fin 256

/-- The Go conversion `byte(x)` of an unsigned integer: the low 8 bits. -/
def byte (x : Nat) : Byte := ⟨x % 256, Nat.mod_lt x (by decide)⟩

/-- Addition of two `uint32` values (wraps modulo `2^32`). -/
def add32 (x y : Nat) : Nat := (x + y) % 2 ^ 32

/-- The Go shift `x << n` on `uint32`: bits shifted out are lost and a count of
32 or more gives 0. -/
def shl32 (x n : Nat) : Nat := if n < 32 then (x <<< n) % 2 ^ 32 else 0

/-- The Go shift `x >> n` on `uint32`: a count of 32 or more gives 0. -/
def shr32 (x n : Nat) : Nat := if n < 32 then x >>> n else 0

/-- The Go shift `x >> n` on `uint64`: a count of 64 or more gives 0. -/
def shr64 (x n : Nat) : Nat := if n < 64 then x >>> n else 0

/-- The Go operator `^x` on `uint32`: bitwise complement. -/
def not32 (x : Nat) : Nat := x ^^^ 0xffffffff

/-- Subtraction `x - y` of two `uint` values (wraps modulo `2^64`). -/
def usub (x y : Nat) : Nat := (x % 2 ^ 64 + (2 ^ 64 - y % 2 ^ 64)) % 2 ^ 64

/-- The checked index expression `xs[i]`. -/
def index {α : Type} (xs : List α) (i : Nat) : Option α := xs[i]?

/-- The checked indexed store `xs[i] = v`. -/
def assign {α : Type} (xs : List α) (i : Nat) (v : α) : Option (List α) :=
  if i < xs.length then some (xs.set i v) else none

/-- The checked slice expression `xs[lo:hi]` (of a slice whose capacity is its length). -/
def slice {α : Type} (xs : List α) (lo hi : Nat) : Option (List α) :=
  if lo ≤ hi ∧ hi ≤ xs.length then some ((xs.drop lo).take (hi - lo)) else none

/-- The Go builtin `copy(dst, src)`: the first `min (len dst) (len src)` elements
of `dst` are overwritten with those of `src`. -/
def copy {α : Type} (dst src : List α) : List α :=
  src.take dst.length ++ dst.drop src.length

/-- The iterations `i, i + 1, .., i + n - 1` of a loop body over the loop-carried
state; a failing iteration fails the loop. -/
def iterate {σ : Type} (body : Nat → σ → Option σ) : Nat → Nat → σ → Option σ
  | 0, _, s => some s
  | n + 1, i, s => (body i s).bind (iterate body n (i + 1))

/-- The Go loop `for i := lo; i < hi; i++ { body }`. -/
def forLoop {σ : Type} (lo hi : Nat) (body : Nat → σ → Option σ) (s : σ) : Option σ :=
  iterate body (hi - lo) lo s

/-! ## The program -/

def BLOCK_SIZE : Nat := 64
def OUTPUT_SIZE : Nat := 32
def INIT_HASH_LEN : Nat := 8

/-- The function `rotr` (main.go:134-136): `(x >> n) | (x << (32 - n))`. -/
def rotr (x n : Nat) : Nat := shr32 x n ||| shl32 x (usub 32 n)

/-- The value of `padLen` computed first in `padData` (main.go:108). -/
def padLenInit (dataLen : Nat) : Nat := BLOCK_SIZE - ((dataLen + 8) % BLOCK_SIZE)

/-- The value of `padLen` after the adjustment `if padLen == 0` (main.go:109-111). -/
def padLenOf (dataLen : Nat) : Nat :=
  if padLenInit dataLen = 0 then BLOCK_SIZE else padLenInit dataLen

/-- The value of `bitLen` in `padData` (main.go:125): `uint64(dataLen) * 8`. -/
def bitLenOf (dataLen : Nat) : Nat := (dataLen % 2 ^ 64 * 8) % 2 ^ 64

/-- The function `padData` (main.go:106-131). -/
def padData (data : List Byte) : Option (List Byte) := do
  let dataLen := data.length
  let padLen := padLenOf dataLen
  let paddedData := List.replicate (dataLen + padLen + 8) (byte 0)
  let paddedData := copy paddedData data
  let paddedData ← assign paddedData dataLen (byte 0x80)
  let paddedData ← forLoop (dataLen + 1) (dataLen + padLen)
    (fun i paddedData => assign paddedData i (byte 0x00)) paddedData
  let bitLen := bitLenOf dataLen
  let paddedData ← forLoop 0 8
    (fun i paddedData =>
      assign paddedData (dataLen + padLen + i) (byte (shr64 bitLen ((7 - i) * 8))))
    paddedData
  return paddedData

/-- The initial hash values `hashValues` of `SHA256` (main.go:21-24). -/
def hashValues : List Nat :=
  [0x6a09e667, 0xbb67ae85, 0x3c6ef372, 0xa54ff53a,
   0x510e527f, 0x9b05688c, 0x1f83d9ab, 0x5be0cd19]

/-- The round constants `k` of `SHA256` (main.go:28-45). -/
def k : List Nat :=
  [0x428a2f98, 0x71374491, 0xb5c0fbcf, 0xe9b5dba5,
   0x3956c25b, 0x59f111f1, 0x923f82a4, 0xab1c5ed5,
   0xd807aa98, 0x12835b01, 0x243185be, 0x550c7dc3,
   0x72be5d74, 0x80deb1fe, 0x9bdc06a7, 0xc19bf174,
   0xe49b69c1, 0xefbe4786, 0x0fc19dc6, 0x240ca1cc,
   0x2de92c6f, 0x4a7484aa, 0x5cb0a9dc, 0x76f988da,
   0x983e5152, 0xa831c66d, 0xb00327c8, 0xbf597fc7,
   0xc6e00bf3, 0xd5a79147, 0x06ca6351, 0x14292967,
   0x27b70a85, 0x2e1b2138, 0x4d2c6dfc, 0x53380d13,
   0x650a7354, 0x766a0abb, 0x81c2c92e, 0x92722c85,
   0xa2bfe8a1, 0xa81a664b, 0xc24b8b70, 0xc76c51a3,
   0xd192e819, 0xd6990624, 0xf40e3585, 0x106aa070,
   0x19a4c116, 0x1e376c08, 0x2748774c, 0x34b0bcb5,
   0x391c0cb3, 0x4ed8aa4a, 0x5b9cca4f, 0x682e6ff3,
   0x748f82ee, 0x78a5636f, 0x84c87814, 0x8cc70208,
   0x90befffa, 0xa4506ceb, 0xbef9a3f7, 0xc67178f2]

/-- The working variables `a, b, c, d, e, f, g, h` of the compression loop. -/
structure Vars where
  a : Nat
  b : Nat
  c : Nat
  d : Nat
  e : Nat
  f : Nat
  g : Nat
  h : Nat
deriving DecidableEq, Repr

/-- The body of the first schedule loop (main.go:58-59): word `t` of the schedule
is read big-endian from bytes `4t .. 4t+3` of the block. -/
def scheduleLoadBody (block : List Byte) (t : Nat) (w : List Nat) : Option (List Nat) := do
  let b0 ← index block (t * 4)
  let b1 ← index block (t * 4 + 1)
  let b2 ← index block (t * 4 + 2)
  let b3 ← index block (t * 4 + 3)
  assign w t (shl32 b0.val 24 ||| shl32 b1.val 16 ||| shl32 b2.val 8 ||| b3.val)

/-- The body of the second schedule loop (main.go:62-64). -/
def scheduleExtendBody (t : Nat) (w : List Nat) : Option (List Nat) := do
  let w15 ← index w (t - 15)
  let s0 := rotr w15 7 ^^^ rotr w15 18 ^^^ shr32 w15 3
  let w2 ← index w (t - 2)
  let s1 := rotr w2 17 ^^^ rotr w2 19 ^^^ shr32 w2 10
  let w16 ← index w (t - 16)
  let w7 ← index w (t - 7)
  assign w t (add32 (add32 (add32 w16 s0) w7) s1)

/-- The message schedule of one block (main.go:54-65). -/
def prepareSchedule (block : List Byte) : Option (List Nat) := do
  let w := List.replicate 64 0
  let w ← forLoop 0 16 (scheduleLoadBody block) w
  forLoop 16 64 scheduleExtendBody w

/-- The body of the compression loop (main.go:72-79). -/
def roundBody (w : List Nat) (t : Nat) (v : Vars) : Option Vars := do
  let s1 := rotr v.e 6 ^^^ rotr v.e 11 ^^^ rotr v.e 25
  let ch := (v.e &&& v.f) ^^^ (not32 v.e &&& v.g)
  let kt ← index k t
  let wt ← index w t
  let temp1 := add32 (add32 (add32 (add32 v.h s1) ch) kt) wt
  let s0 := rotr v.a 2 ^^^ rotr v.a 13 ^^^ rotr v.a 22
  let maj := (v.a &&& v.b) ^^^ (v.a &&& v.c) ^^^ (v.b &&& v.c)
  let temp2 := add32 s0 maj
  return { h := v.g, g := v.f, f := v.e, e := add32 v.d temp1,
           d := v.c, c := v.b, b := v.a, a := add32 temp1 temp2 }

/-- The statement `hashValues[i] += x` (main.go:83-90). -/
def addAssign (hv : List Nat) (i x : Nat) : Option (List Nat) := do
  let old ← index hv i
  assign hv i (add32 old x)

/-- The initialisation of the working variables from the hash values (main.go:68). -/
def initVars (hv : List Nat) : Option Vars := do
  let a ← index hv 0
  let b ← index hv 1
  let c ← index hv 2
  let d ← index hv 3
  let e ← index hv 4
  let f ← index hv 5
  let g ← index hv 6
  let h ← index hv 7
  return { a := a, b := b, c := c, d := d, e := e, f := f, g := g, h := h }

/-- The working variables added into the hash values (main.go:83-90). -/
def addBack (hv : List Nat) (v : Vars) : Option (List Nat) := do
  let hv ← addAssign hv 0 v.a
  let hv ← addAssign hv 1 v.b
  let hv ← addAssign hv 2 v.c
  let hv ← addAssign hv 3 v.d
  let hv ← addAssign hv 4 v.e
  let hv ← addAssign hv 5 v.f
  let hv ← addAssign hv 6 v.g
  addAssign hv 7 v.h

/-- The body of the block loop (main.go:53-90): one block of the padded message
is compressed into the hash values. -/
def blockBody (paddedData : List Byte) (i : Nat) (hv : List Nat) : Option (List Nat) := do
  let block ← slice paddedData (i * BLOCK_SIZE) ((i + 1) * BLOCK_SIZE)
  let w ← prepareSchedule block
  let v ← initVars hv
  let v ← forLoop 0 64 (roundBody w) v
  addBack hv v

/-- The part of the block loop body that follows the schedule (main.go:67-90):
the working variables are initialised, the 64 rounds run on the schedule `w`
and the result is added into the hash values. -/
def compressWith (hv : List Nat) (w : List Nat) : Option (List Nat) := do
  let v ← initVars hv
  let v ← forLoop 0 64 (roundBody w) v
  addBack hv v

/-- The block loop body on a block that is already sliced (main.go:54-90): the
one-block compression step of the program. -/
def compressOne (hv : List Nat) (block : List Byte) : Option (List Nat) := do
  let w ← prepareSchedule block
  compressWith hv w

/-- The block loop of `SHA256` (main.go:51-91): the hash values after all blocks
of the padded message. -/
def processBlocks (paddedData : List Byte) : Option (List Nat) :=
  let numBlocks := paddedData.length / BLOCK_SIZE
  forLoop 0 numBlocks (blockBody paddedData) hashValues

/-- The body of the output loop (main.go:96-99). -/
def outputBody (hv : List Nat) (i : Nat) (hash : List Byte) : Option (List Byte) := do
  let x ← index hv i
  let hash ← assign hash (i * 4) (byte (shr32 x 24))
  let x ← index hv i
  let hash ← assign hash (i * 4 + 1) (byte (shr32 x 16))
  let x ← index hv i
  let hash ← assign hash (i * 4 + 2) (byte (shr32 x 8))
  let x ← index hv i
  assign hash (i * 4 + 3) (byte x)

/-- The final part of `SHA256` (main.go:94-102): the hash values written
big-endian into the 32-byte array `hash`. -/
def produceHash (hv : List Nat) : Option (List Byte) :=
  forLoop 0 INIT_HASH_LEN (outputBody hv) (List.replicate OUTPUT_SIZE (byte 0))

/-- The hash values of `SHA256` when the block loop is left (main.go:48-91). -/
def finalState (data : List Byte) : Option (List Nat) := do
  let paddedData ← padData data
  processBlocks paddedData

/-- The function `SHA256` (main.go:18-103). -/
def SHA256 (data : List Byte) : Option (List Byte) := do
  let hv ← finalState data
  produceHash hv

/-! ## Known digests -/

/-- The digest of the empty input, in hex
`e3b0c44298fc1c149afbf4c8996fb92427ae41e4649b934ca495991b7852b855`. -/
def emptyDigest : List Byte :=
  List.map byte
    [0xe3, 0xb0, 0xc4, 0x42, 0x98, 0xfc, 0x1c, 0x14, 0x9a, 0xfb, 0xf4, 0xc8, 0x99, 0x6f, 0xb9, 0x24,
     0x27, 0xae, 0x41, 0xe4, 0x64, 0x9b, 0x93, 0x4c, 0xa4, 0x95, 0x99, 0x1b, 0x78, 0x52, 0xb8, 0x55]

/-- The digest of `"abc"`, in hex
`ba7816bf8f01cfea414140de5dae2223b00361a396177a9cb410ff61f20015ad`. -/
def abcDigest : List Byte :=
  List.map byte
    [0xba, 0x78, 0x16, 0xbf, 0x8f, 0x01, 0xcf, 0xea, 0x41, 0x41, 0x40, 0xde, 0x5d, 0xae, 0x22, 0x23,
     0xb0, 0x03, 0x61, 0xa3, 0x96, 0x17, 0x7a, 0x9c, 0xb4, 0x10, 0xff, 0x61, 0xf2, 0x00, 0x15, 0xad]

/-! ## Notions used to state the properties -/

/-- The value of a byte string read as a big-endian numeral in base 256. -/
def beValue (bs : List Byte) : Nat := bs.foldl (fun acc b => acc * 256 + b.val) 0

/-- The length bytes written by the last loop of `padData`. -/
def lengthBytes (bitLen : Nat) : List Byte :=
  (List.range 8).map (fun i => byte (shr64 bitLen ((7 - i) * 8)))

/-- The padded message in closed form: the data, the byte `0x80`, the zero fill
and the length bytes. -/
def paddedOf (data : List Byte) : List Byte :=
  data ++ [byte 0x80] ++ List.replicate (padLenOf data.length - 1) (byte 0)
    ++ lengthBytes (bitLenOf data.length)

/-! ## Closed forms of the parts of `SHA256`

The loops of `SHA256` are shown below to compute these functions. -/

/-- Word `t` of the schedule as read from the block (main.go:58-59). -/
def blockWord (block : List Byte) (t : Nat) : Nat :=
  shl32 (block.getD (t * 4) 0).val 24 ||| shl32 (block.getD (t * 4 + 1) 0).val 16 |||
    shl32 (block.getD (t * 4 + 2) 0).val 8 ||| (block.getD (t * 4 + 3) 0).val

/-- The value `s0` of the schedule loop (main.go:62). -/
def schedS0 (x : Nat) : Nat := rotr x 7 ^^^ rotr x 18 ^^^ shr32 x 3

/-- The value `s1` of the schedule loop (main.go:63). -/
def schedS1 (x : Nat) : Nat := rotr x 17 ^^^ rotr x 19 ^^^ shr32 x 10

/-- Word `t` of the message schedule of a block. -/
def scheduleWord (block : List Byte) (t : Nat) : Nat :=
  if h : t < 16 then blockWord block t
  else add32 (add32 (add32 (scheduleWord block (t - 16)) (schedS0 (scheduleWord block (t - 15))))
    (scheduleWord block (t - 7))) (schedS1 (scheduleWord block (t - 2)))
termination_by t
decreasing_by all_goals omega

/-- The invariant of the two schedule loops: the first `t` words are final. -/
def ScheduleInv (block : List Byte) (t : Nat) (w : List Nat) : Prop :=
  w.length = 64 ∧ ∀ j, j < t → index w j = some (scheduleWord block j)

/-- One round of the compression loop (main.go:72-79) for the round constant
`kt` and the schedule word `wt`. -/
def roundStep (kt wt : Nat) (v : Vars) : Vars :=
  let s1 := rotr v.e 6 ^^^ rotr v.e 11 ^^^ rotr v.e 25
  let ch := (v.e &&& v.f) ^^^ (not32 v.e &&& v.g)
  let temp1 := add32 (add32 (add32 (add32 v.h s1) ch) kt) wt
  let s0 := rotr v.a 2 ^^^ rotr v.a 13 ^^^ rotr v.a 22
  let maj := (v.a &&& v.b) ^^^ (v.a &&& v.c) ^^^ (v.b &&& v.c)
  let temp2 := add32 s0 maj
  { h := v.g, g := v.f, f := v.e, e := add32 v.d temp1,
    d := v.c, c := v.b, b := v.a, a := add32 temp1 temp2 }

/-- The working variables after the first `n` rounds on the schedule `w`. -/
def roundsUpTo (w : Nat → Nat) (v : Vars) : Nat → Vars
  | 0 => v
  | n + 1 => roundStep (k.getD n 0) (w n) (roundsUpTo w v n)

/-- The working variables as initialised from the hash values. -/
def varsOf (hv : List Nat) : Vars :=
  { a := hv.getD 0 0, b := hv.getD 1 0, c := hv.getD 2 0, d := hv.getD 3 0,
    e := hv.getD 4 0, f := hv.getD 5 0, g := hv.getD 6 0, h := hv.getD 7 0 }

/-- The hash values with the working variables added word by word. -/
def addVars (hv : List Nat) (v : Vars) : List Nat :=
  [add32 (hv.getD 0 0) v.a, add32 (hv.getD 1 0) v.b, add32 (hv.getD 2 0) v.c,
   add32 (hv.getD 3 0) v.d, add32 (hv.getD 4 0) v.e, add32 (hv.getD 5 0) v.f,
   add32 (hv.getD 6 0) v.g, add32 (hv.getD 7 0) v.h]

/-- The one-block compression step: the hash values after one 64-byte block. -/
def compressBlock (hv : List Nat) (block : List Byte) : List Nat :=
  addVars hv (roundsUpTo (scheduleWord block) (varsOf hv) 64)

/-- Block `i` of the padded message: bytes `64 i .. 64 i + 63`. -/
def blockAt (paddedData : List Byte) (i : Nat) : List Byte :=
  (paddedData.drop (i * BLOCK_SIZE)).take ((i + 1) * BLOCK_SIZE - i * BLOCK_SIZE)

/-- The hash values after the first `n` blocks of the padded message. -/
def stateAfter (paddedData : List Byte) : Nat → List Nat
  | 0 => hashValues
  | n + 1 => compressBlock (stateAfter paddedData n) (blockAt paddedData n)

/-- The four bytes written for one hash value (main.go:96-99). -/
def wordBytes (x : Nat) : List Byte :=
  [byte (shr32 x 24), byte (shr32 x 16), byte (shr32 x 8), byte x]

/-- The digest in closed form. -/
def digestOf (data : List Byte) : List Byte :=
  (stateAfter (paddedOf data) ((paddedOf data).length / BLOCK_SIZE)).flatMap wordBytes

/-! ## SHA-256 as defined by FIPS 180-4

A definition that follows the text of the standard and is independent of the
program: messages are bit strings, words are natural numbers below `2^32`. -/

namespace FIPS

/-- The integer represented by a bit string, most significant bit first (§3.1). -/
def toNat (bs : List Bool) : Nat := bs.foldl (fun acc b => 2 * acc + b.toNat) 0

/-- The number `v` expressed in binary with `w` bits, most significant bit first. -/
def binary (w v : Nat) : List Bool := (List.range w).map (fun i => v.testBit (w - 1 - i))

/-- The bit string of a byte sequence: each byte contributes its 8 bits, most
significant bit first. -/
def bitsOfBytes (m : List Byte) : List Bool := m.flatMap (fun b => binary 8 b.val)

/-- Addition modulo `2^32` (§2.2.2). -/
def plus (x y : Nat) : Nat := (x + y) % 2 ^ 32

/-- The rotate right operation `ROTR^n(x) = (x >> n) ∨ (x << w - n)` on 32-bit
words (§3.2). -/
def ROTR (n x : Nat) : Nat := (x >>> n) ||| ((x <<< (32 - n)) % 2 ^ 32)

/-- The right shift operation `SHR^n(x) = x >> n` (§3.2). -/
def SHR (n x : Nat) : Nat := x >>> n

/-- The bitwise complement of a 32-bit word. -/
def complement (x : Nat) : Nat := 2 ^ 32 - 1 - x

/-- The function `Ch(x, y, z) = (x ∧ y) ⊕ (¬x ∧ z)` (§4.1.2). -/
def Ch (x y z : Nat) : Nat := (x &&& y) ^^^ (complement x &&& z)

/-- The function `Maj(x, y, z) = (x ∧ y) ⊕ (x ∧ z) ⊕ (y ∧ z)` (§4.1.2). -/
def Maj (x y z : Nat) : Nat := (x &&& y) ^^^ (x &&& z) ^^^ (y &&& z)

/-- The function `Σ0(x) = ROTR^2(x) ⊕ ROTR^13(x) ⊕ ROTR^22(x)` (§4.1.2). -/
def Sigma0 (x : Nat) : Nat := ROTR 2 x ^^^ ROTR 13 x ^^^ ROTR 22 x

/-- The function `Σ1(x) = ROTR^6(x) ⊕ ROTR^11(x) ⊕ ROTR^25(x)` (§4.1.2). -/
def Sigma1 (x : Nat) : Nat := ROTR 6 x ^^^ ROTR 11 x ^^^ ROTR 25 x

/-- The function `σ0(x) = ROTR^7(x) ⊕ ROTR^18(x) ⊕ SHR^3(x)` (§4.1.2). -/
def sigma0 (x : Nat) : Nat := ROTR 7 x ^^^ ROTR 18 x ^^^ SHR 3 x

/-- The function `σ1(x) = ROTR^17(x) ⊕ ROTR^19(x) ⊕ SHR^10(x)` (§4.1.2). -/
def sigma1 (x : Nat) : Nat := ROTR 17 x ^^^ ROTR 19 x ^^^ SHR 10 x

/-- The constants `K_0, .., K_63` (§4.2.2). -/
def K (t : Nat) : Nat :=
  [0x428a2f98, 0x71374491, 0xb5c0fbcf, 0xe9b5dba5, 0x3956c25b, 0x59f111f1, 0x923f82a4, 0xab1c5ed5,
   0xd807aa98, 0x12835b01, 0x243185be, 0x550c7dc3, 0x72be5d74, 0x80deb1fe, 0x9bdc06a7, 0xc19bf174,
   0xe49b69c1, 0xefbe4786, 0x0fc19dc6, 0x240ca1cc, 0x2de92c6f, 0x4a7484aa, 0x5cb0a9dc, 0x76f988da,
   0x983e5152, 0xa831c66d, 0xb00327c8, 0xbf597fc7, 0xc6e00bf3, 0xd5a79147, 0x06ca6351, 0x14292967,
   0x27b70a85, 0x2e1b2138, 0x4d2c6dfc, 0x53380d13, 0x650a7354, 0x766a0abb, 0x81c2c92e, 0x92722c85,
   0xa2bfe8a1, 0xa81a664b, 0xc24b8b70, 0xc76c51a3, 0xd192e819, 0xd6990624, 0xf40e3585, 0x106aa070,
   0x19a4c116, 0x1e376c08, 0x2748774c, 0x34b0bcb5, 0x391c0cb3, 0x4ed8aa4a, 0x5b9cca4f, 0x682e6ff3,
   0x748f82ee, 0x78a5636f, 0x84c87814, 0x8cc70208, 0x90befffa, 0xa4506ceb, 0xbef9a3f7,
   0xc67178f2].getD t 0

/-- Eight 32-bit words: a hash value `H_0, .., H_7` or the working variables
`a, .., h`. -/
structure Words where
  a : Nat
  b : Nat
  c : Nat
  d : Nat
  e : Nat
  f : Nat
  g : Nat
  h : Nat

/-- The initial hash value `H^(0)` (§5.3.3). -/
def H0 : Words :=
  { a := 0x6a09e667, b := 0xbb67ae85, c := 0x3c6ef372, d := 0xa54ff53a,
    e := 0x510e527f, f := 0x9b05688c, g := 0x1f83d9ab, h := 0x5be0cd19 }

/-- The number `k` of zero bits of the padding of a message of `l` bits: the
smallest non-negative solution of `l + 1 + k ≡ 448 mod 512` (§5.1.1). -/
def zeroBits (l : Nat) : Nat :=
  Nat.find (p := fun k => (l + 1 + k) % 512 = 448)
    ⟨(959 - (l % 512)) % 512, by omega⟩

/-- The padded message (§5.1.1): the message, the bit 1, `k` zero bits and the
64-bit binary representation of the message length `l`. -/
def pad (M : List Bool) : List Bool :=
  M ++ [true] ++ List.replicate (zeroBits M.length) false ++ binary 64 M.length

/-- The `i`-th 512-bit block of the padded message, counted from 0 (§5.2.1). -/
def block (P : List Bool) (i : Nat) : List Bool := (P.drop (512 * i)).take 512

/-- The 32-bit word `M_t` of a block (§5.2.1). -/
def word (B : List Bool) (t : Nat) : Nat := toNat ((B.drop (32 * t)).take 32)

/-- The message schedule `W_t` of a block (§6.2.2 step 1). -/
def W (B : List Bool) (t : Nat) : Nat :=
  if h : t < 16 then word B t
  else plus (plus (plus (sigma1 (W B (t - 2))) (W B (t - 7))) (sigma0 (W B (t - 15))))
    (W B (t - 16))
termination_by t
decreasing_by all_goals omega

/-- Round `t` on the working variables (§6.2.2 step 3). -/
def round (B : List Bool) (t : Nat) (v : Words) : Words :=
  let T1 := plus (plus (plus (plus v.h (Sigma1 v.e)) (Ch v.e v.f v.g)) (K t)) (W B t)
  let T2 := plus (Sigma0 v.a) (Maj v.a v.b v.c)
  { h := v.g, g := v.f, f := v.e, e := plus v.d T1, d := v.c, c := v.b, b := v.a,
    a := plus T1 T2 }

/-- The working variables after rounds `0, .., t - 1`. -/
def rounds (B : List Bool) (v : Words) : Nat → Words
  | 0 => v
  | t + 1 => round B t (rounds B v t)

/-- The next hash value from the previous one and a block (§6.2.2 steps 2-4). -/
def compress (H : Words) (B : List Bool) : Words :=
  let v := rounds B H 64
  { a := plus v.a H.a, b := plus v.b H.b, c := plus v.c H.c, d := plus v.d H.d,
    e := plus v.e H.e, f := plus v.f H.f, g := plus v.g H.g, h := plus v.h H.h }

/-- The hash value `H^(i)` after `i` blocks of the padded message (§6.2.2). -/
def hashValue (P : List Bool) : Nat → Words
  | 0 => H0
  | i + 1 => compress (hashValue P i) (block P i)

/-- The 256-bit string `H_0 ‖ H_1 ‖ .. ‖ H_7`. -/
def concatWords (H : Words) : List Bool :=
  binary 32 H.a ++ binary 32 H.b ++ binary 32 H.c ++ binary 32 H.d ++
    binary 32 H.e ++ binary 32 H.f ++ binary 32 H.g ++ binary 32 H.h

/-- The SHA-256 message digest of a message of `l < 2^64` bits (§6.2): the
final hash value of the `N` blocks of the padded message. -/
def sha256 (M : List Bool) : Option (List Bool) :=
  if M.length < 2 ^ 64 then
    some (concatWords (hashValue (pad M) ((pad M).length / 512)))
  else none

end FIPS

/-! ## Relating the two definitions -/

/-- Eight words as the list of hash values held by the program. -/
def FIPS.Words.toList (H : FIPS.Words) : List Nat :=
  [H.a, H.b, H.c, H.d, H.e, H.f, H.g, H.h]

/-- Eight words as the working variables of the program. -/
def FIPS.Words.toVars (H : FIPS.Words) : Vars :=
  { a := H.a, b := H.b, c := H.c, d := H.d, e := H.e, f := H.f, g := H.g, h := H.h }

/-- All eight words are 32-bit values. -/
def FIPS.Words.Bounded (H : FIPS.Words) : Prop :=
  H.a < 2 ^ 32 ∧ H.b < 2 ^ 32 ∧ H.c < 2 ^ 32 ∧ H.d < 2 ^ 32 ∧
    H.e < 2 ^ 32 ∧ H.f < 2 ^ 32 ∧ H.g < 2 ^ 32 ∧ H.h < 2 ^ 32

/-- The one-block compression step does not collide on the blocks of two padded
messages: whenever it gives the same result for a block of the first and a
block of the second, it was applied to the same hash values and the same block. -/
def CollisionFree (pa pb : List Byte) : Prop :=
  ∀ i j, i < pa.length / BLOCK_SIZE → j < pb.length / BLOCK_SIZE →
    compressBlock (stateAfter pa i) (blockAt pa i)
        = compressBlock (stateAfter pb j) (blockAt pb j) →
      stateAfter pa i = stateAfter pb j ∧ blockAt pa i = blockAt pb j

/-! ## The pipeline in the words of the specification -/

/-- The consecutive 64-byte blocks of a byte sequence, in order. -/
def blocksOf (p : List Byte) : List (List Byte) :=
  (List.range (p.length / 64)).map (fun i => (p.drop (64 * i)).take 64)

/-- A 32-byte digest read as 8 big-endian 32-bit words. -/
def readWords (d : List Byte) : List Nat :=
  (List.range 8).map (fun i => beValue ((d.drop (4 * i)).take 4))

/-- The working variables as the list `a, .., h`. -/
def Vars.toList (v : Vars) : List Nat := [v.a, v.b, v.c, v.d, v.e, v.f, v.g, v.h]

/-- All working variables are 32-bit values. -/
def Vars.Bounded (v : Vars) : Prop :=
  v.a < 2 ^ 32 ∧ v.b < 2 ^ 32 ∧ v.c < 2 ^ 32 ∧ v.d < 2 ^ 32 ∧
    v.e < 2 ^ 32 ∧ v.f < 2 ^ 32 ∧ v.g < 2 ^ 32 ∧ v.h < 2 ^ 32

/-- One round as the specification words it: `temp1 = h + Σ1 + Ch + k[t] + w[t]`,
`temp2 = Σ0 + Maj`, then `h=g, g=f, f=e, e=d+temp1, d=c, c=b, b=a, a=temp1+temp2`,
all additions modulo `2^32`, with `not e` the complement of the 32-bit word `e`. -/
def specRound (kt wt : Nat) (v : Vars) : Vars :=
  let temp1 := (v.h + (rotr v.e 6 ^^^ rotr v.e 11 ^^^ rotr v.e 25)
    + ((v.e &&& v.f) ^^^ ((2 ^ 32 - 1 - v.e) &&& v.g)) + kt + wt) % 2 ^ 32
  let temp2 := ((rotr v.a 2 ^^^ rotr v.a 13 ^^^ rotr v.a 22)
    + ((v.a &&& v.b) ^^^ (v.a &&& v.c) ^^^ (v.b &&& v.c))) % 2 ^ 32
  { h := v.g, g := v.f, f := v.e, e := (v.d + temp1) % 2 ^ 32,
    d := v.c, c := v.b, b := v.a, a := (temp1 + temp2) % 2 ^ 32 }

/-- The rounds `t = 0, .., 63` applied in order, with `k[t]` and `w[t]`. -/
def specRounds (w : List Nat) (v : Vars) : Vars :=
  (List.range 64).foldl (fun u t => specRound (k.getD t 0) (w.getD t 0) u) v

/-- The bytes that follow `padData m` in `padData (padData m ++ s)`, for a message
`m` of `n` bytes: the suffix `s` and the padding of a message of
`len (padData m) + len s` bytes. -/
def extensionTail (n : Nat) (s : List Byte) : List Byte :=
  s ++ [byte 0x80]
    ++ List.replicate (padLenOf (n + padLenOf n + 8 + s.length) - 1) (byte 0)
    ++ lengthBytes (bitLenOf (n + padLenOf n + 8 + s.length))

/-! ## Primes and roots, for the constants of `SHA256` -/

/-- Primality by trial division: `p` is at least 2 and no `d` with `2 ≤ d < p`
divides it. -/
def isPrime (p : Nat) : Bool :=
  decide (2 ≤ p) && (List.range p).all (fun d => decide (d < 2) || p % d != 0)

/-- The first 64 primes `2, .., 311`. -/
def primes : List Nat :=
  [2, 3, 5, 7, 11, 13, 17, 19, 23, 29, 31, 37, 41, 43, 47, 53,
   59, 61, 67, 71, 73, 79, 83, 89, 97, 101, 103, 107, 109, 113, 127, 131,
   137, 139, 149, 151, 157, 163, 167, 173, 179, 181, 191, 193, 197, 199, 211, 223,
   227, 229, 233, 239, 241, 251, 257, 263, 269, 271, 277, 281, 283, 293, 307, 311]

/-- The integer part of the cube root of `p`: the greatest `r` with `r ^ 3 ≤ p`. -/
def cbrtFloor (p : Nat) : Nat := Nat.findGreatest (fun r => r ^ 3 ≤ p) p

/-! ## An evaluator for inputs that pad to one block

The functions below compute the digest of an input of at most 55 bytes with
accumulators and plain arithmetic, so that many digests can be evaluated; they
are proved below to agree with `SHA256`. -/

/-- Addition modulo `2^32`. -/
def addF (x y : Nat) : Nat := Nat.mod (Nat.add x y) 4294967296

/-- The value `(x >> n) | (x << m)` on 32 bits. -/
def rotF (x n m : Nat) : Nat :=
  Nat.lor (Nat.shiftRight x n) (Nat.mod (Nat.shiftLeft x m) 4294967296)

/-- The exclusive or of three words. -/
def xor3 (x y z : Nat) : Nat := Nat.xor (Nat.xor x y) z

/-- The big-endian word made of the first four bytes of a byte sequence. -/
def wordF : List Byte → Nat
  | b0 :: b1 :: b2 :: b3 :: _ =>
    Nat.add (Nat.add (Nat.add (Nat.mul b0.val 16777216) (Nat.mul b1.val 65536))
      (Nat.mul b2.val 256)) b3.val
  | _ => 0

/-- The next `n` words read from the bytes, pushed onto `acc` (latest first). -/
def loadRev : Nat → List Byte → List Nat → List Nat
  | 0, _, acc => acc
  | n + 1, bs, acc => loadRev n (bs.drop 4) (wordF bs :: acc)

/-- The next schedule word from the schedule so far, latest word first. -/
def nextWord : List Nat → Nat
  | _ :: w2 :: _ :: _ :: _ :: _ :: w7 :: _ :: _ :: _ :: _ :: _ :: _ :: _ :: w15 :: w16 :: _ =>
    addF (addF (addF w16 (xor3 (rotF w15 7 25) (rotF w15 18 14) (Nat.shiftRight w15 3))) w7)
      (xor3 (rotF w2 17 15) (rotF w2 19 13) (Nat.shiftRight w2 10))
  | _ => 0

/-- The schedule extended by `n` words, latest word first. -/
def extendRev : Nat → List Nat → List Nat
  | 0, ws => ws
  | n + 1, ws => extendRev n (nextWord ws :: ws)

/-- The value `temp1` of a round. -/
def temp1F (kt wt e f g h : Nat) : Nat :=
  addF (addF (addF (addF h (xor3 (rotF e 6 26) (rotF e 11 21) (rotF e 25 7)))
    (Nat.xor (Nat.land e f) (Nat.land (Nat.xor e 4294967295) g))) kt) wt

/-- The value `temp2` of a round. -/
def temp2F (a b c : Nat) : Nat :=
  addF (xor3 (rotF a 2 30) (rotF a 13 19) (rotF a 22 10))
    (xor3 (Nat.land a b) (Nat.land a c) (Nat.land b c))

/-- The rounds for the given round constants and schedule words, in order. -/
def roundsF : List Nat → List Nat → Nat → Nat → Nat → Nat → Nat → Nat → Nat → Nat → List Nat
  | kt :: ks, wt :: ws, a, b, c, d, e, f, g, h =>
    roundsF ks ws (addF (temp1F kt wt e f g h) (temp2F a b c)) a b c
      (addF d (temp1F kt wt e f g h)) e f g
  | _, _, a, b, c, d, e, f, g, h => [a, b, c, d, e, f, g, h]

/-- The hash values after one block. -/
def compressF (hv : List Nat) (block : List Byte) : List Nat :=
  match hv with
  | [a, b, c, d, e, f, g, h] =>
    match roundsF k (extendRev 48 (loadRev 16 block [])).reverse a b c d e f g h with
    | [a1, b1, c1, d1, e1, f1, g1, h1] =>
      [addF a a1, addF b b1, addF c c1, addF d d1, addF e e1, addF f f1, addF g g1, addF h h1]
    | _ => []
  | _ => []

/-- The digest of an input that pads to one block. -/
def digestF (m : List Byte) : List Byte :=
  (compressF hashValues (paddedOf m)).flatMap wordBytes

/-- The inputs of at most one byte, numbered: `0` is the empty sequence and
`i + 1` is the single byte `i`. -/
def inputAt (i : Nat) : List Byte :=
  if i = 0 then [] else [byte (i - 1)]

/-- The first four bytes of a digest, read as a big-endian number. -/
def digestKey (d : List Byte) : Nat :=
  beValue (d.take 4)

/-- The leading 32-bit words of the digests of the 257 inputs of at most one
byte, in the numbering of `inputAt`. -/
def keyTable : List Nat :=
  [
  3820012610, 1848904604, 1274352175, 3686905033, 139455752, 3844971600, 3883637402, 1733848728,
  3392505688, 3203061625, 726414383, 28985113, 3889120928, 4016880929, 2635992621, 1299922679,
  3691945014, 3310742196, 1248108807, 4070144284, 2877915069, 2206801279, 789565928, 2092418132,
  2400301149, 1160487389, 1755983406, 1492627576, 2007891093, 3176121386, 521721424, 2521979231,
  4293294523, 917104625, 3144812732, 2318606301, 860051897, 167548424, 3153326364, 2501758691,
  643815959, 854307243, 3126773021, 1749584064, 2736308802, 3493135044, 963895330, 3451186730,
  2321472178, 1609362278, 1803989619, 3564330554, 1309098117, 1260550007, 4012708477, 3891707921,
  2030201243, 744636978, 425205287, 3886811014, 1102579178, 3669834495, 940120249, 1656127007,
  2324555811, 3278118789, 1436216016, 3749605605, 1797505237, 1060754883, 2851411302, 4135235850,
  859703838, 1153268454, 2822623436, 1839479700, 2260638293, 1927270320, 150106504, 2364041834,
  3295235886, 1549983889, 1256723826, 2351264905, 2380313540, 3862083337, 2723484615, 3730468728,
  4239782925, 1265150776, 418723917, 3152985479, 609764267, 2837790152, 3484290370, 1959632633,
  3538071031, 2368992544, 3398926610, 1042540566, 779955203, 413941363, 1064942459, 623841480,
  3440028037, 2863218726, 3732740978, 413089795, 2186593065, 2896987840, 1657170554, 454472159,
  1707559957, 344844741, 2385887949, 1162037732, 70939015, 3820587597, 201233246, 1284786270,
  1357324772, 762385986, 2717705270, 1498304922, 35632534, 3420835807, 3507173034, 2060337948,
  1644953002, 1992198994, 1494973641, 2779478060, 1591795021, 2863195678, 3222175624, 1019064166,
  1274684938, 1328951184, 3920674865, 758223721, 1052646233, 2649731241, 122788031, 2493486296,
  1580675164, 2651286762, 2108005645, 2506121747, 3513504303, 1741189844, 1538067729, 2223454292,
  705345330, 2042546175, 4254410937, 101044563, 2369174451, 1849667358, 2636607861, 900672789,
  521686800, 3248126335, 2324254967, 172208685, 1838218156, 2292858427, 1763895614, 4263365946,
  767529829, 1960947171, 2660142135, 3169777237, 142442743, 4000036971, 581807877, 427113115,
  1517189703, 4109991048, 345278680, 2615376287, 1710315553, 664084849, 2301583539, 3393291292,
  1298828944, 3552251225, 81182921, 672961433, 3421297180, 652591076, 1748129568, 1199900744,
  2972567632, 3841941117, 3518748475, 3310872339, 2923382297, 3508604929, 1510916893, 1234781281,
  859867194, 2086392529, 1337406398, 324634198, 943611261, 500707622, 2591783738, 3275218646,
  2051689296, 3568353444, 3049891316, 2247720452, 680959199, 1384809678, 3452867444, 170684064,
  1095377381, 2937666188, 420818399, 1566342432, 3084014230, 4220889752, 664077388, 2034354951,
  782856447, 2106351015, 4029804453, 816168869, 1165903956, 1579089897, 2875308561, 171618023,
  3497339744, 3874621264, 3727569693, 987030602, 4174515801, 1173896471, 4091486108, 2487574078,
  1296922071, 4259644037, 3572538972, 2523692103, 2016281090, 538443572, 665575133, 2964494475,
  1350995744, 3851856101, 3575652947, 2859607527, 79221582, 2557619758, 1041568777, 2858974040,
  2819623654]

/-! ## Loops -/

theorem iterate_zero {σ : Type} (body : Nat → σ → Option σ) (i : Nat) (s : σ) :
    iterate body 0 i s = some s := rfl

theorem iterate_succ {σ : Type} (body : Nat → σ → Option σ) (n i : Nat) (s : σ) :
    iterate body (n + 1) i s = (body i s).bind (iterate body n (i + 1)) := rfl

/-- A loop whose body keeps an invariant and never fails on states satisfying
it succeeds, and the invariant holds for the final state. -/
theorem iterate_invariant {σ : Type} (body : Nat → σ → Option σ) (P : Nat → σ → Prop) :
    ∀ (n i : Nat) (s : σ), P i s →
      (∀ j t, i ≤ j → j < i + n → P j t → ∃ t', body j t = some t' ∧ P (j + 1) t') →
      ∃ s', iterate body n i s = some s' ∧ P (i + n) s' := by
  intro n
  induction n with
  | zero => intro i s h _; exact ⟨s, rfl, h⟩
  | succ n ih =>
    intro i s h step
    obtain ⟨t, ht, hP⟩ := step i s (Nat.le_refl i) (by omega) h
    obtain ⟨s', hs', hP'⟩ := ih (i + 1) t hP
      (fun j u h1 h2 hu => step j u (by omega) (by omega) hu)
    refine ⟨s', ?_, ?_⟩
    · rw [iterate_succ, ht]; exact hs'
    · have e : i + (n + 1) = i + 1 + n := by omega
      rw [e]; exact hP'

theorem forLoop_invariant {σ : Type} (body : Nat → σ → Option σ) (P : Nat → σ → Prop)
    (lo hi : Nat) (hle : lo ≤ hi) (s : σ) (h0 : P lo s)
    (step : ∀ j t, lo ≤ j → j < hi → P j t → ∃ t', body j t = some t' ∧ P (j + 1) t') :
    ∃ s', forLoop lo hi body s = some s' ∧ P hi s' := by
  obtain ⟨s', h1, h2⟩ := iterate_invariant body P (hi - lo) lo s h0
    (fun j t a b c => step j t a (by omega) c)
  refine ⟨s', h1, ?_⟩
  have e : lo + (hi - lo) = hi := by omega
  rw [e] at h2; exact h2

theorem assign_append {α : Type} (A D : List α) (c v : α) :
    assign (A ++ c :: D) A.length v = some (A ++ v :: D) := by
  simp [assign]

/-- A loop that stores `f j` at position `c + j` for `j = i, .., i + n - 1`
overwrites exactly that segment. -/
theorem iterate_fill {α : Type} (c : Nat) (f : Nat → α) (body : Nat → List α → Option (List α))
    (hbody : ∀ j s, body j s = assign s (c + j) (f j)) :
    ∀ (n i : Nat) (A C D : List α), A.length = c + i → C.length = n →
      iterate body n i (A ++ C ++ D)
        = some (A ++ (List.range n).map (fun j => f (i + j)) ++ D) := by
  intro n
  induction n with
  | zero =>
    intro i A C D _ hC
    have : C = [] := List.length_eq_zero.mp hC
    simp [iterate, this]
  | succ n ih =>
    intro i A C D hA hC
    obtain ⟨x, C', rfl⟩ := List.exists_cons_of_length_eq_add_one hC
    have hC' : C'.length = n := by simpa using hC
    have h1 : body i (A ++ x :: C' ++ D) = some ((A ++ [f i]) ++ C' ++ D) := by
      rw [hbody, ← hA]
      have := assign_append A (C' ++ D) x (f i)
      simpa using this
    rw [iterate_succ, h1, Option.some_bind, ih (i + 1) (A ++ [f i]) C' D (by simp; omega) hC']
    congr 1
    rw [List.range_succ_eq_map]
    simp [List.map_map, Function.comp_def, Nat.add_assoc, Nat.add_comm 1]

/-! ## Padding -/

theorem padLenInit_pos (n : Nat) : 1 ≤ padLenInit n ∧ padLenInit n ≤ 64 := by
  unfold padLenInit BLOCK_SIZE
  omega

theorem padLenOf_eq (n : Nat) : padLenOf n = 64 - (n + 8) % 64 := by
  have h := padLenInit_pos n
  unfold padLenOf
  rw [if_neg (by omega)]
  rfl

theorem padLenOf_pos (n : Nat) : 1 ≤ padLenOf n ∧ padLenOf n ≤ 64 := by
  rw [padLenOf_eq]; omega

theorem copy_replicate {α : Type} (data : List α) (m : Nat) (x : α) :
    copy (List.replicate (data.length + m) x) data = data ++ List.replicate m x := by
  simp [copy, List.take_of_length_le]

/-- The function `padData` never fails and returns the closed form `paddedOf`. -/
theorem padData_eq (data : List Byte) : padData data = some (paddedOf data) := by
  have hp := padLenOf_pos data.length
  obtain ⟨q, hq⟩ : ∃ q, padLenOf data.length = q + 1 := ⟨padLenOf data.length - 1, by omega⟩
  have h1 : copy (List.replicate (data.length + padLenOf data.length + 8) (byte 0)) data
      = data ++ byte 0 :: (List.replicate q (byte 0) ++ List.replicate 8 (byte 0)) := by
    rw [Nat.add_assoc, copy_replicate, hq]
    have e : q + 1 + 8 = (q + 8) + 1 := by omega
    rw [e, List.replicate_succ, List.replicate_add]
  have h2 : forLoop (data.length + 1) (data.length + padLenOf data.length)
      (fun i paddedData => assign paddedData i (byte 0x00))
      (data ++ byte 0x80 :: (List.replicate q (byte 0) ++ List.replicate 8 (byte 0)))
      = some ((data ++ [byte 0x80] ++ List.replicate q (byte 0)) ++ List.replicate 8 (byte 0)
          ++ []) := by
    have e : data.length + padLenOf data.length - (data.length + 1) = q := by omega
    unfold forLoop
    rw [e]
    have := iterate_fill 0 (fun _ => byte 0x00) (fun i paddedData => assign paddedData i (byte 0x00))
      (by intro j s; simp) q (data.length + 1) (data ++ [byte 0x80]) (List.replicate q (byte 0))
      (List.replicate 8 (byte 0)) (by simp) (by simp)
    simpa using this
  have h3 := iterate_fill (data.length + padLenOf data.length)
    (fun i => byte (shr64 (bitLenOf data.length) ((7 - i) * 8)))
    (fun i paddedData => assign paddedData (data.length + padLenOf data.length + i)
      (byte (shr64 (bitLenOf data.length) ((7 - i) * 8))))
    (fun _ _ => rfl) 8 0 (data ++ [byte 0x80] ++ List.replicate q (byte 0))
    (List.replicate 8 (byte 0)) [] (by simp; omega) (by simp)
  unfold padData
  simp only [h1, assign_append, Option.bind_eq_bind, Option.some_bind, h2]
  unfold forLoop
  rw [Nat.sub_zero, h3]
  simp [paddedOf, lengthBytes, hq]

theorem paddedOf_length (data : List Byte) :
    (paddedOf data).length = data.length + padLenOf data.length + 8 := by
  have hp := padLenOf_pos data.length
  simp [paddedOf, lengthBytes]
  omega

theorem lengthBytes_length (b : Nat) : (lengthBytes b).length = 8 := by
  simp [lengthBytes]

theorem beValue_lengthBytes (b : Nat) (hb : b < 2 ^ 64) : beValue (lengthBytes b) = b := by
  simp [lengthBytes, List.range, List.range.loop, beValue, byte, shr64,
    Nat.shiftRight_eq_div_pow]
  omega

/-- C4: for a byte sequence `m` of `n < 2^61` bytes, `padData m` is `m`, one byte
`0x80`, `z` bytes `0x00` and 8 bytes whose big-endian value is `8 * n`, where `z`
is the least natural number with `n + 1 + z + 8` a multiple of 64. -/
theorem padData_layout (m : List Byte) (h : m.length < 2 ^ 61) :
    ∃ (z : Nat) (lenBytes : List Byte),
      padData m = some (m ++ [byte 0x80] ++ List.replicate z (byte 0x00) ++ lenBytes)
      ∧ lenBytes.length = 8 ∧ beValue lenBytes = 8 * m.length
      ∧ (m.length + 1 + z + 8) % 64 = 0
      ∧ ∀ z', (m.length + 1 + z' + 8) % 64 = 0 → z ≤ z' := by
  refine ⟨padLenOf m.length - 1, lengthBytes (bitLenOf m.length), padData_eq m,
    lengthBytes_length _, ?_, ?_, ?_⟩
  · have hb : bitLenOf m.length = 8 * m.length := by
      unfold bitLenOf; omega
    rw [beValue_lengthBytes _ (by unfold bitLenOf; omega), hb]
  · rw [padLenOf_eq]; omega
  · intro z' hz'
    rw [padLenOf_eq]; omega

/-- Witness for C4 at the three-byte input `"abc"`. -/
theorem padData_layout_witness :
    ∃ (z : Nat) (lenBytes : List Byte),
      padData [byte 0x61, byte 0x62, byte 0x63]
        = some ([byte 0x61, byte 0x62, byte 0x63] ++ [byte 0x80]
            ++ List.replicate z (byte 0x00) ++ lenBytes)
      ∧ lenBytes.length = 8 ∧ beValue lenBytes = 8 * [byte 0x61, byte 0x62, byte 0x63].length
      ∧ ([byte 0x61, byte 0x62, byte 0x63].length + 1 + z + 8) % 64 = 0
      ∧ ∀ z', ([byte 0x61, byte 0x62, byte 0x63].length + 1 + z' + 8) % 64 = 0 → z ≤ z' :=
  padData_layout [byte 0x61, byte 0x62, byte 0x63] (by decide)

/-- C5: for every byte sequence `m`, also the empty one, `padData m` returns a
sequence whose length is a multiple of 64 and at least 64. -/
theorem padData_length_multiple (m : List Byte) :
    ∃ p, padData m = some p ∧ p.length % 64 = 0 ∧ 64 ≤ p.length := by
  refine ⟨paddedOf m, padData_eq m, ?_, ?_⟩ <;>
    (rw [paddedOf_length, padLenOf_eq]; omega)

/-- C6: for a byte sequence `m` of `n` bytes, the length of `padData m` is the
least multiple of 64 that is at least `n + 9`; it is `64 * (n / 64 + 1)` when
`n % 64 ≤ 55` and `64 * (n / 64 + 2)` when `n % 64 ≥ 56`; inputs of 55, 56, 57
and 64 bytes give 64, 128, 128 and 128 bytes. -/
theorem padData_length_least (m : List Byte) :
    ∃ p, padData m = some p
      ∧ (p.length % 64 = 0 ∧ m.length + 9 ≤ p.length
          ∧ ∀ L, L % 64 = 0 → m.length + 9 ≤ L → p.length ≤ L)
      ∧ (m.length % 64 ≤ 55 → p.length = 64 * (m.length / 64 + 1))
      ∧ (56 ≤ m.length % 64 → p.length = 64 * (m.length / 64 + 2))
      ∧ (m.length = 55 → p.length = 64) ∧ (m.length = 56 → p.length = 128)
      ∧ (m.length = 57 → p.length = 128) ∧ (m.length = 64 → p.length = 128) := by
  refine ⟨paddedOf m, padData_eq m, ⟨?_, ?_, ?_⟩, ?_, ?_, ?_, ?_, ?_, ?_⟩ <;>
    (rw [paddedOf_length, padLenOf_eq]; omega)

/-! ## The message schedule -/

theorem index_of_lt {α : Type} (xs : List α) (i : Nat) (d : α) (h : i < xs.length) :
    index xs i = some (xs.getD i d) := by
  simp [index, List.getD, List.getElem?_eq_getElem h]

theorem assign_of_lt {α : Type} (xs : List α) (i : Nat) (v : α) (h : i < xs.length) :
    assign xs i v = some (xs.set i v) := by
  simp [assign, h]

theorem index_set_self {α : Type} (xs : List α) (i : Nat) (v : α) (h : i < xs.length) :
    index (xs.set i v) i = some v := by
  simp [index, List.getElem?_set_self h]

theorem index_set_ne {α : Type} (xs : List α) (i j : Nat) (v : α) (h : i ≠ j) :
    index (xs.set i v) j = index xs j := by
  simp [index, List.getElem?_set_ne h]

theorem scheduleWord_lt (block : List Byte) (t : Nat) (h : t < 16) :
    scheduleWord block t = blockWord block t := by
  rw [scheduleWord, dif_pos h]

theorem scheduleWord_ge (block : List Byte) (t : Nat) (h : 16 ≤ t) :
    scheduleWord block t
      = add32 (add32 (add32 (scheduleWord block (t - 16)) (schedS0 (scheduleWord block (t - 15))))
          (scheduleWord block (t - 7))) (schedS1 (scheduleWord block (t - 2))) := by
  rw [scheduleWord, dif_neg (by omega)]

theorem ScheduleInv_set (block : List Byte) (t : Nat) (w : List Nat) (ht : t < 64)
    (h : ScheduleInv block t w) :
    ScheduleInv block (t + 1) (w.set t (scheduleWord block t)) := by
  obtain ⟨hl, hw⟩ := h
  refine ⟨by simp [hl], ?_⟩
  intro j hj
  by_cases e : j = t
  · subst e
    exact index_set_self w j _ (by omega)
  · rw [index_set_ne w t j _ (fun h => e h.symm)]
    exact hw j (by omega)

theorem scheduleLoadBody_eq (block : List Byte) (hb : block.length = 64) (t : Nat)
    (ht : t < 16) (w : List Nat) (hw : w.length = 64) :
    scheduleLoadBody block t w = some (w.set t (scheduleWord block t)) := by
  unfold scheduleLoadBody
  rw [index_of_lt block (t * 4) 0 (by omega), index_of_lt block (t * 4 + 1) 0 (by omega),
    index_of_lt block (t * 4 + 2) 0 (by omega), index_of_lt block (t * 4 + 3) 0 (by omega)]
  simp only [Option.bind_eq_bind, Option.some_bind]
  rw [assign_of_lt w t _ (by omega), scheduleWord_lt block t ht]
  rfl

theorem scheduleExtendBody_eq (block : List Byte) (t : Nat) (h16 : 16 ≤ t) (ht : t < 64)
    (w : List Nat) (hw : ScheduleInv block t w) :
    scheduleExtendBody t w = some (w.set t (scheduleWord block t)) := by
  unfold scheduleExtendBody
  rw [hw.2 (t - 15) (by omega), hw.2 (t - 2) (by omega), hw.2 (t - 16) (by omega),
    hw.2 (t - 7) (by omega)]
  simp only [Option.bind_eq_bind, Option.some_bind]
  rw [assign_of_lt w t _ (by rw [hw.1]; exact ht), scheduleWord_ge block t h16]
  rfl

theorem ScheduleInv_init (block : List Byte) : ScheduleInv block 0 (List.replicate 64 0) := by
  constructor
  · simp
  · intro j hj; omega

/-- The schedule loops never fail on a 64-byte block, and word `t` of their
result is `scheduleWord block t`. -/
theorem prepareSchedule_spec (block : List Byte) (hb : block.length = 64) :
    ∃ w, prepareSchedule block = some w ∧ ScheduleInv block 64 w := by
  have s1 : ∀ j t, 0 ≤ j → j < 16 → ScheduleInv block j t →
      ∃ t', scheduleLoadBody block j t = some t' ∧ ScheduleInv block (j + 1) t' := by
    intro j t _ hj inv
    exact ⟨_, scheduleLoadBody_eq block hb j hj t inv.1, ScheduleInv_set block j t (by omega) inv⟩
  have s2 : ∀ j t, 16 ≤ j → j < 64 → ScheduleInv block j t →
      ∃ t', scheduleExtendBody j t = some t' ∧ ScheduleInv block (j + 1) t' := by
    intro j t h16 hj inv
    exact ⟨_, scheduleExtendBody_eq block j h16 hj t inv, ScheduleInv_set block j t hj inv⟩
  obtain ⟨w1, h1, inv1⟩ := forLoop_invariant (scheduleLoadBody block) (ScheduleInv block) 0 16
    (by omega) (List.replicate 64 0) (ScheduleInv_init block) s1
  obtain ⟨w2, h2, inv2⟩ := forLoop_invariant scheduleExtendBody (ScheduleInv block) 16 64
    (by omega) w1 inv1 s2
  refine ⟨w2, ?_, inv2⟩
  have e : prepareSchedule block = (forLoop 0 16 (scheduleLoadBody block)
      (List.replicate 64 0)).bind (forLoop 16 64 scheduleExtendBody) := rfl
  rw [e, h1, Option.some_bind]
  exact h2

/-! ## The compression loop -/

theorem k_length : k.length = 64 := rfl

theorem roundBody_eq (block : List Byte) (w : List Nat) (hw : ScheduleInv block 64 w)
    (t : Nat) (ht : t < 64) (v : Vars) :
    roundBody w t v = some (roundStep (k.getD t 0) (scheduleWord block t) v) := by
  unfold roundBody
  rw [index_of_lt k t 0 (by rw [k_length]; exact ht), hw.2 t ht]
  simp only [Option.bind_eq_bind, Option.some_bind]
  rfl

/-- The compression loop never fails and runs the 64 rounds in order. -/
theorem rounds_eq (block : List Byte) (w : List Nat) (hw : ScheduleInv block 64 w) (v : Vars) :
    forLoop 0 64 (roundBody w) v = some (roundsUpTo (scheduleWord block) v 64) := by
  obtain ⟨v', h1, h2⟩ := forLoop_invariant (roundBody w)
    (fun t u => u = roundsUpTo (scheduleWord block) v t) 0 64 (by omega) v rfl
    (fun j u _ hj hu => ⟨_, roundBody_eq block w hw j hj u, by rw [hu]; rfl⟩)
  rw [h1, h2]

/-! ## The block loop -/

theorem length_eight {α : Type} (l : List α) (h : l.length = 8) :
    ∃ a b c d e f g i, l = [a, b, c, d, e, f, g, i] := by
  match l, h with
  | [a, b, c, d, e, f, g, i], _ => exact ⟨a, b, c, d, e, f, g, i, rfl⟩

theorem initVars_eq (hv : List Nat) (h : hv.length = 8) : initVars hv = some (varsOf hv) := by
  obtain ⟨a, b, c, d, e, f, g, i, rfl⟩ := length_eight hv h
  rfl

theorem addBack_eq (hv : List Nat) (h : hv.length = 8) (v : Vars) :
    addBack hv v = some (addVars hv v) := by
  obtain ⟨a, b, c, d, e, f, g, i, rfl⟩ := length_eight hv h
  rfl

theorem blockAt_length (paddedData : List Byte) (i : Nat)
    (h : (i + 1) * 64 ≤ paddedData.length) : (blockAt paddedData i).length = 64 := by
  simp [blockAt, BLOCK_SIZE]
  omega

theorem slice_block (paddedData : List Byte) (i : Nat) (h : (i + 1) * 64 ≤ paddedData.length) :
    slice paddedData (i * BLOCK_SIZE) ((i + 1) * BLOCK_SIZE) = some (blockAt paddedData i) := by
  unfold slice
  rw [if_pos]
  · rfl
  · simp only [BLOCK_SIZE]; omega

theorem compressBlock_length (hv : List Nat) (block : List Byte) :
    (compressBlock hv block).length = 8 := rfl

theorem stateAfter_length (paddedData : List Byte) (n : Nat) :
    (stateAfter paddedData n).length = 8 := by
  cases n <;> rfl

/-- One iteration of the block loop never fails on a block inside the padded
message and computes `compressBlock`. -/
theorem blockBody_eq (paddedData : List Byte) (i : Nat)
    (h : (i + 1) * 64 ≤ paddedData.length) (hv : List Nat) (hl : hv.length = 8) :
    blockBody paddedData i hv = some (compressBlock hv (blockAt paddedData i)) := by
  obtain ⟨w, h1, inv⟩ := prepareSchedule_spec (blockAt paddedData i)
    (blockAt_length paddedData i h)
  unfold blockBody
  simp only [Option.bind_eq_bind, slice_block paddedData i h, Option.some_bind, h1,
    initVars_eq hv hl, rounds_eq _ w inv, addBack_eq hv hl]
  rfl

/-- The block loop never fails and leaves the hash values `stateAfter`. -/
theorem processBlocks_eq (paddedData : List Byte) :
    processBlocks paddedData
      = some (stateAfter paddedData (paddedData.length / BLOCK_SIZE)) := by
  obtain ⟨hv, h1, h2⟩ := forLoop_invariant (blockBody paddedData)
    (fun i hv => hv = stateAfter paddedData i) 0 (paddedData.length / BLOCK_SIZE)
    (Nat.zero_le _) hashValues rfl
    (fun j hv _ hj e => ⟨_, blockBody_eq paddedData j
        (by simp only [BLOCK_SIZE] at hj; omega) hv
        (by rw [e]; exact stateAfter_length paddedData j),
      by rw [e]; rfl⟩)
  unfold processBlocks
  rw [h1, h2]

/-! ## The output loop -/

theorem produceHash_eq (hv : List Nat) (h : hv.length = 8) :
    produceHash hv = some (hv.flatMap wordBytes) := by
  obtain ⟨a, b, c, d, e, f, g, i, rfl⟩ := length_eight hv h
  simp [produceHash, forLoop, iterate, outputBody, index, assign, INIT_HASH_LEN, OUTPUT_SIZE,
    List.replicate, wordBytes]

/-- The function `SHA256` never fails and returns the closed form `digestOf`. -/
theorem SHA256_eq (data : List Byte) : SHA256 data = some (digestOf data) := by
  unfold SHA256 finalState
  simp only [Option.bind_eq_bind, padData_eq, Option.some_bind, processBlocks_eq]
  exact produceHash_eq _ (stateAfter_length _ _)

/-! ## Totality and the shape of the digest -/

theorem hashValues_lt : ∀ x ∈ hashValues, x < 2 ^ 32 := by
  decide

theorem stateAfter_lt (paddedData : List Byte) (n : Nat) :
    ∀ x ∈ stateAfter paddedData n, x < 2 ^ 32 := by
  cases n with
  | zero => exact hashValues_lt
  | succ n =>
    intro x hx
    simp only [stateAfter, compressBlock, addVars, List.mem_cons, List.mem_singleton,
      List.not_mem_nil, or_false] at hx
    rcases hx with h | h | h | h | h | h | h | h <;>
      (rw [h]; exact Nat.mod_lt _ (by decide))

theorem digestOf_length (data : List Byte) : (digestOf data).length = 32 := by
  unfold digestOf
  obtain ⟨a, b, c, d, e, f, g, i, h⟩ := length_eight _
    (stateAfter_length (paddedOf data) ((paddedOf data).length / BLOCK_SIZE))
  rw [h]
  rfl

theorem finalState_eq (data : List Byte) :
    finalState data = some (stateAfter (paddedOf data) ((paddedOf data).length / BLOCK_SIZE)) := by
  unfold finalState
  simp only [Option.bind_eq_bind, padData_eq, Option.some_bind, processBlocks_eq]

theorem beValue_wordBytes (x : Nat) (h : x < 2 ^ 32) : beValue (wordBytes x) = x := by
  simp [wordBytes, beValue, byte, shr32, Nat.shiftRight_eq_div_pow]
  omega

/-- C7: `SHA256` is total: for every byte sequence the padding, the block loop
(slicing, schedule, round constants) and the output loop all succeed, none of
their checked index or slice expressions is out of range, and the digest has
exactly 32 bytes. -/
theorem SHA256_total (m : List Byte) :
    ∃ (p : List Byte) (st : List Nat) (d : List Byte),
      padData m = some p ∧ processBlocks p = some st ∧ produceHash st = some d
      ∧ SHA256 m = some d ∧ d.length = 32 :=
  ⟨paddedOf m, stateAfter (paddedOf m) ((paddedOf m).length / BLOCK_SIZE), digestOf m,
    padData_eq m, processBlocks_eq _, produceHash_eq _ (stateAfter_length _ _),
    SHA256_eq m, digestOf_length m⟩

/-- Reading a serialised list of eight 32-bit words back as big-endian words. -/
theorem readBack_wordBytes (st : List Nat) (hlen : st.length = 8)
    (hlt : ∀ x ∈ st, x < 2 ^ 32) :
    (List.range 8).map (fun i => beValue (((st.flatMap wordBytes).drop (4 * i)).take 4))
      = st := by
  obtain ⟨a, b, c, d, e, f, g, x, h⟩ := length_eight st hlen
  subst h
  simp only [List.mem_cons, List.mem_singleton, List.not_mem_nil, or_false,
    forall_eq_or_imp, forall_eq] at hlt
  obtain ⟨h0, h1, h2, h3, h4, h5, h6, h7⟩ := hlt
  have e := beValue_wordBytes
  simp only [wordBytes] at e
  simp [List.range, List.range.loop, wordBytes, e _ h0, e _ h1, e _ h2, e _ h3, e _ h4,
    e _ h5, e _ h6, e _ h7]

/-- C8: the digest is the big-endian serialisation of the 8 final hash values:
byte `4 i + j` of the digest is `(state[i] >> (24 - 8 j)) mod 256`, and reading
the digest back as 8 big-endian 32-bit words gives the final hash values. -/
theorem SHA256_big_endian (m : List Byte) :
    ∃ (st : List Nat) (d : List Byte),
      finalState m = some st ∧ SHA256 m = some d ∧ st.length = 8
      ∧ (∀ i j, i < 8 → j < 4 →
          (d.getD (4 * i + j) 0).val = (st.getD i 0 >>> (24 - 8 * j)) % 256)
      ∧ (List.range 8).map (fun i => beValue ((d.drop (4 * i)).take 4)) = st := by
  refine ⟨stateAfter (paddedOf m) ((paddedOf m).length / BLOCK_SIZE), digestOf m,
    finalState_eq m, SHA256_eq m, stateAfter_length _ _, ?_,
    readBack_wordBytes _ (stateAfter_length _ _) (stateAfter_lt _ _)⟩
  unfold digestOf
  obtain ⟨a, b, c, d, e, f, g, x, h⟩ := length_eight _
    (stateAfter_length (paddedOf m) ((paddedOf m).length / BLOCK_SIZE))
  rw [h]
  intro i j hi hj
  interval_cases i <;> interval_cases j <;> simp [wordBytes, byte, shr32]

/-! ## Collisions -/

/-- The results of `SHA256` lie in a finite set: the 32-byte sequences. -/
theorem SHA256_range_finite : (Set.range SHA256).Finite := by
  have hfin : ({l : List Byte | l.length = 32}).Finite := List.finite_length_eq Byte 32
  refine (hfin.image some).subset ?_
  rintro _ ⟨m, rfl⟩
  exact ⟨digestOf m, digestOf_length m, (SHA256_eq m).symm⟩

/-- Two distinct inputs of 33 bytes each have the same digest: there are `256^33`
such inputs and only `256^32` sequences of 32 bytes. -/
theorem collision_of_33_bytes :
    ∃ a b : List Byte, a.length = 33 ∧ b.length = 33 ∧ a ≠ b ∧ SHA256 a = SHA256 b := by
  have hcard : Fintype.card (Mathlib.Vector Byte 32) < Fintype.card (Mathlib.Vector Byte 33) := by
    rw [card_vector, card_vector, Fintype.card_fin]
    norm_num
  obtain ⟨x, y, hxy, hf⟩ := @Fintype.exists_ne_map_eq_of_card_lt (Mathlib.Vector Byte 33)
    (Mathlib.Vector Byte 32) _ _ (fun v => ⟨digestOf v.1, digestOf_length v.1⟩) hcard
  refine ⟨x.1, y.1, x.2, y.2, fun h => hxy (Subtype.ext h), ?_⟩
  rw [SHA256_eq, SHA256_eq]
  exact congrArg some (congrArg Subtype.val hf)

/-- C10 fails: it is not the case that distinct inputs always have distinct
digests; already among the inputs of exactly 33 bytes two distinct ones have the
same digest. -/
theorem SHA256_collision_exists :
    (∃ a b : List Byte, a.length = 33 ∧ b.length = 33 ∧ a ≠ b ∧ SHA256 a = SHA256 b)
      ∧ ¬ ∀ a b : List Byte, a ≠ b → SHA256 a ≠ SHA256 b := by
  refine ⟨collision_of_33_bytes, fun h => ?_⟩
  obtain ⟨a, b, _, _, hne, heq⟩ := collision_of_33_bytes
  exact h a b hne heq

theorem flatMap_wordBytes_injective (s1 s2 : List Nat) (h1 : s1.length = 8)
    (h2 : s2.length = 8) (b1 : ∀ x ∈ s1, x < 2 ^ 32) (b2 : ∀ x ∈ s2, x < 2 ^ 32)
    (h : s1.flatMap wordBytes = s2.flatMap wordBytes) : s1 = s2 := by
  rw [← readBack_wordBytes s1 h1 b1, ← readBack_wordBytes s2 h2 b2, h]

theorem getElem?_blockAt (p : List Byte) (i r : Nat) (hr : r < 64) :
    (blockAt p i)[r]? = p[i * 64 + r]? := by
  unfold blockAt
  simp only [BLOCK_SIZE]
  rw [List.getElem?_take_of_lt (by omega), List.getElem?_drop]

theorem eq_of_blocks (pa pb : List Byte) (N : Nat) (ha : pa.length = N * 64)
    (hb : pb.length = N * 64) (h : ∀ i, i < N → blockAt pa i = blockAt pb i) : pa = pb := by
  apply List.ext_getElem?
  intro x
  by_cases hx : x < N * 64
  · have e : x = (x / 64) * 64 + x % 64 := by omega
    rw [e, ← getElem?_blockAt pa _ _ (by omega), ← getElem?_blockAt pb _ _ (by omega),
      h _ (by omega)]
  · rw [List.getElem?_eq_none (by omega), List.getElem?_eq_none (by omega)]

theorem paddedOf_blocks (m : List Byte) :
    (paddedOf m).length = (paddedOf m).length / BLOCK_SIZE * 64
      ∧ 1 ≤ (paddedOf m).length / BLOCK_SIZE := by
  rw [paddedOf_length, padLenOf_eq]
  simp only [BLOCK_SIZE]
  omega

theorem lastBlock_lengthBytes (m : List Byte) :
    (blockAt (paddedOf m) ((paddedOf m).length / BLOCK_SIZE - 1)).drop 56
      = lengthBytes (bitLenOf m.length) := by
  obtain ⟨h1, h2⟩ := paddedOf_blocks m
  have hl := paddedOf_length m
  have hp := padLenOf_pos m.length
  have hX : (m ++ [byte 0x80] ++ List.replicate (padLenOf m.length - 1) (byte 0)).length
      = ((paddedOf m).length / BLOCK_SIZE - 1) * BLOCK_SIZE + 56 := by
    simp only [List.length_append, List.length_singleton, List.length_replicate, BLOCK_SIZE]
    omega
  unfold blockAt
  rw [List.drop_take, List.drop_drop, ← hX]
  conv_lhs => rw [paddedOf]
  rw [List.drop_left, List.take_of_length_le]
  rw [lengthBytes_length]
  simp only [BLOCK_SIZE]
  omega

theorem bitLenOf_injective (x y : Nat) (hx : x < 2 ^ 61) (hy : y < 2 ^ 61)
    (h : bitLenOf x = bitLenOf y) : x = y := by
  unfold bitLenOf at h
  omega

/-- Walking the two chains of hash values back from equal final values: without
a collision of the compression step, the hash values and the blocks agree. -/
theorem chain_back (pa pb : List Byte) (hcf : CollisionFree pa pb)
    (hend : stateAfter pa (pa.length / BLOCK_SIZE) = stateAfter pb (pb.length / BLOCK_SIZE)) :
    ∀ t, t ≤ pa.length / BLOCK_SIZE → t ≤ pb.length / BLOCK_SIZE →
      stateAfter pa (pa.length / BLOCK_SIZE - t) = stateAfter pb (pb.length / BLOCK_SIZE - t)
      ∧ ∀ s, s < t → blockAt pa (pa.length / BLOCK_SIZE - 1 - s)
          = blockAt pb (pb.length / BLOCK_SIZE - 1 - s) := by
  intro t
  induction t with
  | zero =>
    intro _ _
    exact ⟨hend, fun s hs => absurd hs (Nat.not_lt_zero s)⟩
  | succ t ih =>
    intro h1 h2
    obtain ⟨hst, hbl⟩ := ih (by omega) (by omega)
    have ea : pa.length / BLOCK_SIZE - t = (pa.length / BLOCK_SIZE - (t + 1)) + 1 := by omega
    have eb : pb.length / BLOCK_SIZE - t = (pb.length / BLOCK_SIZE - (t + 1)) + 1 := by omega
    rw [ea, eb] at hst
    have hc := hcf (pa.length / BLOCK_SIZE - (t + 1)) (pb.length / BLOCK_SIZE - (t + 1))
      (by omega) (by omega) hst
    refine ⟨hc.1, ?_⟩
    intro s hs
    by_cases e : s = t
    · have e1 : pa.length / BLOCK_SIZE - 1 - s = pa.length / BLOCK_SIZE - (t + 1) := by omega
      have e2 : pb.length / BLOCK_SIZE - 1 - s = pb.length / BLOCK_SIZE - (t + 1) := by omega
      rw [e1, e2]
      exact hc.2
    · exact hbl s (by omega)

theorem paddedOf_injective (a b : List Byte) (h : paddedOf a = paddedOf b)
    (hlen : a.length = b.length) : a = b := by
  have ea : (paddedOf a).take a.length = a := by
    unfold paddedOf
    rw [List.append_assoc, List.append_assoc, List.take_left]
  have eb : (paddedOf b).take b.length = b := by
    unfold paddedOf
    rw [List.append_assoc, List.append_assoc, List.take_left]
  rw [← ea, ← eb, h, hlen]

/-- The Merkle-Damgård reduction: two distinct inputs of fewer than `2^61` bytes
with the same digest yield a collision of the one-block compression step on the
blocks of their padded messages. -/
theorem digest_ne_of_collisionFree (a b : List Byte) (ha : a.length < 2 ^ 61)
    (hb : b.length < 2 ^ 61) (hne : a ≠ b)
    (hcf : CollisionFree (paddedOf a) (paddedOf b)) : SHA256 a ≠ SHA256 b := by
  intro heq
  rw [SHA256_eq, SHA256_eq] at heq
  have hd : digestOf a = digestOf b := Option.some.inj heq
  have hend := flatMap_wordBytes_injective _ _ (stateAfter_length _ _) (stateAfter_length _ _)
    (stateAfter_lt _ _) (stateAfter_lt _ _) hd
  obtain ⟨hla, hNa⟩ := paddedOf_blocks a
  obtain ⟨hlb, hNb⟩ := paddedOf_blocks b
  have hback := chain_back _ _ hcf hend
  have hlast := (hback 1 hNa hNb).2 0 (by omega)
  have hl := congrArg (List.drop 56) hlast
  rw [Nat.sub_zero, Nat.sub_zero, lastBlock_lengthBytes, lastBlock_lengthBytes] at hl
  have hv := congrArg beValue hl
  rw [beValue_lengthBytes _ (by unfold bitLenOf; omega),
    beValue_lengthBytes _ (by unfold bitLenOf; omega)] at hv
  have hlen : a.length = b.length := bitLenOf_injective _ _ ha hb hv
  have hN : (paddedOf a).length / BLOCK_SIZE = (paddedOf b).length / BLOCK_SIZE := by
    rw [paddedOf_length, paddedOf_length, hlen]
  have hall := (hback ((paddedOf a).length / BLOCK_SIZE) (Nat.le_refl _) (by omega)).2
  have hp : paddedOf a = paddedOf b := by
    apply eq_of_blocks _ _ ((paddedOf a).length / BLOCK_SIZE) hla (by rw [hN]; exact hlb)
    intro i hi
    have h := hall ((paddedOf a).length / BLOCK_SIZE - 1 - i) (by omega)
    rw [← hN] at h
    have e : (paddedOf a).length / BLOCK_SIZE - 1 - ((paddedOf a).length / BLOCK_SIZE - 1 - i)
        = i := by omega
    rw [e] at h
    exact h
  exact hne (paddedOf_injective a b hp hlen)

/-! ## Bit strings -/

namespace FIPS

theorem foldl_toNat (ys : List Bool) (acc : Nat) :
    ys.foldl (fun acc b => 2 * acc + b.toNat) acc
      = acc * 2 ^ ys.length + ys.foldl (fun acc b => 2 * acc + b.toNat) 0 := by
  induction ys generalizing acc with
  | nil => simp
  | cons y ys ih =>
    simp only [List.foldl_cons, List.length_cons]
    rw [ih (2 * acc + y.toNat), ih (2 * 0 + y.toNat)]
    ring

theorem toNat_append (xs ys : List Bool) :
    toNat (xs ++ ys) = toNat xs * 2 ^ ys.length + toNat ys := by
  unfold toNat
  rw [List.foldl_append, foldl_toNat]

theorem binary_length (w v : Nat) : (binary w v).length = w := by
  simp [binary]

theorem binary_succ (w v : Nat) : binary (w + 1) v = v.testBit w :: binary w v := by
  unfold binary
  rw [List.range_succ_eq_map, List.map_cons, List.map_map]
  congr 1
  apply List.map_congr_left
  intro i _
  simp only [Function.comp_apply, Nat.succ_eq_add_one]
  congr 1
  omega

theorem toNat_binary (w v : Nat) : toNat (binary w v) = v % 2 ^ w := by
  induction w with
  | zero => simp [binary, toNat, Nat.mod_one]
  | succ w ih =>
    have e : v.testBit w :: binary w v = [v.testBit w] ++ binary w v := rfl
    rw [binary_succ, e, toNat_append, ih, binary_length, Nat.mod_pow_succ]
    simp only [toNat, List.foldl_cons, List.foldl_nil, Nat.toNat_testBit]
    ring

theorem binary_add (m n v : Nat) : binary (m + n) v = binary m (v >>> n) ++ binary n v := by
  unfold binary
  rw [List.range_add, List.map_append, List.map_map]
  congr 1
  · apply List.map_congr_left
    intro i hi
    rw [List.mem_range] at hi
    rw [Nat.testBit_shiftRight]
    congr 1
    omega
  · apply List.map_congr_left
    intro i _
    simp only [Function.comp_apply]
    congr 1
    omega

theorem binary_mod (n v : Nat) : binary n (v % 2 ^ n) = binary n v := by
  unfold binary
  apply List.map_congr_left
  intro i hi
  rw [List.mem_range] at hi
  rw [Nat.testBit_mod_two_pow]
  have : n - 1 - i < n := by omega
  simp [this]

theorem binary_byte (x : Nat) : binary 8 (byte x).val = binary 8 x :=
  binary_mod 8 x

theorem bitsOfBytes_nil : bitsOfBytes [] = [] := rfl

theorem bitsOfBytes_cons (b : Byte) (m : List Byte) :
    bitsOfBytes (b :: m) = binary 8 b.val ++ bitsOfBytes m := rfl

theorem bitsOfBytes_append (x y : List Byte) :
    bitsOfBytes (x ++ y) = bitsOfBytes x ++ bitsOfBytes y := by
  simp [bitsOfBytes]

theorem bitsOfBytes_length (m : List Byte) : (bitsOfBytes m).length = 8 * m.length := by
  induction m with
  | nil => rfl
  | cons b m ih =>
    rw [bitsOfBytes_cons, List.length_append, binary_length, ih, List.length_cons]
    ring

theorem bitsOfBytes_drop (j : Nat) (p : List Byte) :
    (bitsOfBytes p).drop (8 * j) = bitsOfBytes (p.drop j) := by
  induction j generalizing p with
  | zero => simp
  | succ j ih =>
    cases p with
    | nil => simp [bitsOfBytes_nil]
    | cons b p =>
      have e : 8 * (j + 1) = (binary 8 b.val).length + 8 * j := by
        rw [binary_length]; ring
      rw [bitsOfBytes_cons, e, List.drop_append, ih, List.drop_succ_cons]

theorem bitsOfBytes_take (j : Nat) (p : List Byte) :
    (bitsOfBytes p).take (8 * j) = bitsOfBytes (p.take j) := by
  induction j generalizing p with
  | zero => simp [bitsOfBytes_nil]
  | succ j ih =>
    cases p with
    | nil => simp [bitsOfBytes_nil]
    | cons b p =>
      have e : 8 * (j + 1) = (binary 8 b.val).length + 8 * j := by
        rw [binary_length]; ring
      rw [bitsOfBytes_cons, e, List.take_append, ih, List.take_succ_cons, bitsOfBytes_cons]

theorem bitsOfBytes_replicate_zero (z : Nat) :
    bitsOfBytes (List.replicate z (byte 0)) = List.replicate (8 * z) false := by
  induction z with
  | zero => rfl
  | succ z ih =>
    have e : 8 * (z + 1) = 8 + 8 * z := by ring
    rw [List.replicate_succ, bitsOfBytes_cons, ih, e, List.replicate_add]
    rfl

theorem bitsOfBytes_wordBytes (x : Nat) : bitsOfBytes (wordBytes x) = binary 32 x := by
  have e1 := binary_add 24 8 x
  have e2 := binary_add 16 8 (x >>> 8)
  have e3 := binary_add 8 8 (x >>> 8 >>> 8)
  simp only [Nat.reduceAdd, ← Nat.shiftRight_add] at e1 e2 e3
  rw [e1, e2, e3]
  simp [wordBytes, bitsOfBytes, binary_byte, shr32]

theorem bitsOfBytes_lengthBytes (b : Nat) : bitsOfBytes (lengthBytes b) = binary 64 b := by
  have e1 := binary_add 56 8 b
  have e2 := binary_add 48 8 (b >>> 8)
  have e3 := binary_add 40 8 (b >>> 8 >>> 8)
  have e4 := binary_add 32 8 (b >>> 8 >>> 8 >>> 8)
  have e5 := binary_add 24 8 (b >>> 8 >>> 8 >>> 8 >>> 8)
  have e6 := binary_add 16 8 (b >>> 8 >>> 8 >>> 8 >>> 8 >>> 8)
  have e7 := binary_add 8 8 (b >>> 8 >>> 8 >>> 8 >>> 8 >>> 8 >>> 8)
  simp only [Nat.reduceAdd, ← Nat.shiftRight_add] at e1 e2 e3 e4 e5 e6 e7
  rw [e1, e2, e3, e4, e5, e6, e7]
  simp [lengthBytes, List.range, List.range.loop, bitsOfBytes, binary_byte, shr64]

end FIPS

/-! ## The program computes the FIPS 180-4 digest -/

theorem rotr_eq_ROTR (x n : Nat) (h2 : n < 32) (h1 : 0 < n) : rotr x n = FIPS.ROTR n x := by
  have e : usub 32 n = 32 - n := by
    unfold usub
    omega
  unfold rotr FIPS.ROTR shr32 shl32
  rw [e, if_pos h2, if_pos (by omega)]

theorem not32_eq_complement (x : Nat) (h : x < 2 ^ 32) : not32 x = FIPS.complement x := by
  unfold not32 FIPS.complement
  apply Nat.eq_of_testBit_eq
  intro i
  have e1 : (0xffffffff : Nat) = 2 ^ 32 - 1 := by norm_num
  have e2 : 2 ^ 32 - 1 - x = 2 ^ 32 - (x + 1) := by omega
  rw [e1, e2, Nat.testBit_xor, Nat.testBit_two_pow_sub_one, Nat.testBit_two_pow_sub_succ h]
  by_cases hi : i < 32
  · simp [hi]
  · have hx : x.testBit i = false :=
      Nat.testBit_lt_two_pow (lt_of_lt_of_le h (Nat.pow_le_pow_right (by decide) (by omega)))
    simp [hi, hx]

theorem schedS0_eq (x : Nat) : schedS0 x = FIPS.sigma0 x := by
  unfold schedS0 FIPS.sigma0
  rw [rotr_eq_ROTR x 7 (by decide) (by decide), rotr_eq_ROTR x 18 (by decide) (by decide)]
  rfl

theorem schedS1_eq (x : Nat) : schedS1 x = FIPS.sigma1 x := by
  unfold schedS1 FIPS.sigma1
  rw [rotr_eq_ROTR x 17 (by decide) (by decide), rotr_eq_ROTR x 19 (by decide) (by decide)]
  rfl

theorem take_four_drop {α : Type} (l : List α) (d : α) (j : Nat) (h : j + 4 ≤ l.length) :
    (l.drop j).take 4 = [l.getD j d, l.getD (j + 1) d, l.getD (j + 2) d, l.getD (j + 3) d] := by
  rw [List.drop_eq_getElem_cons (by omega : j < l.length),
    List.drop_eq_getElem_cons (by omega : j + 1 < l.length),
    List.drop_eq_getElem_cons (by omega : j + 1 + 1 < l.length),
    List.drop_eq_getElem_cons (by omega : j + 1 + 1 + 1 < l.length),
    List.getD_eq_getElem l d (by omega : j < l.length),
    List.getD_eq_getElem l d (by omega : j + 1 < l.length),
    List.getD_eq_getElem l d (by omega : j + 2 < l.length),
    List.getD_eq_getElem l d (by omega : j + 3 < l.length)]
  rfl

theorem toNat_four_bytes (b0 b1 b2 b3 : Byte) :
    FIPS.toNat (FIPS.bitsOfBytes [b0, b1, b2, b3])
      = shl32 b0.val 24 ||| shl32 b1.val 16 ||| shl32 b2.val 8 ||| b3.val := by
  have h0 := b0.isLt
  have h1 := b1.isLt
  have h2 := b2.isLt
  have h3 := b3.isLt
  have l : FIPS.toNat (FIPS.bitsOfBytes [b0, b1, b2, b3])
      = 2 ^ 24 * b0.val + (2 ^ 16 * b1.val + (2 ^ 8 * b2.val + b3.val)) := by
    simp only [FIPS.bitsOfBytes_cons, FIPS.bitsOfBytes_nil, FIPS.toNat_append,
      FIPS.toNat_binary, List.length_append, FIPS.binary_length, List.length_nil,
      List.append_nil]
    norm_num
    omega
  have s0 : shl32 b0.val 24 = 2 ^ 24 * b0.val := by
    simp only [shl32, Nat.shiftLeft_eq]; norm_num; omega
  have s1 : shl32 b1.val 16 = 2 ^ 16 * b1.val := by
    simp only [shl32, Nat.shiftLeft_eq]; norm_num; omega
  have s2 : shl32 b2.val 8 = 2 ^ 8 * b2.val := by
    simp only [shl32, Nat.shiftLeft_eq]; norm_num; omega
  have x3 : 2 ^ 8 * b2.val + b3.val = 2 ^ 8 * b2.val ||| b3.val :=
    Nat.mul_add_lt_is_or h3 _
  have x2 : 2 ^ 16 * b1.val + (2 ^ 8 * b2.val + b3.val)
      = 2 ^ 16 * b1.val ||| (2 ^ 8 * b2.val + b3.val) :=
    Nat.mul_add_lt_is_or (by omega) _
  have x1 : 2 ^ 24 * b0.val + (2 ^ 16 * b1.val + (2 ^ 8 * b2.val + b3.val))
      = 2 ^ 24 * b0.val ||| (2 ^ 16 * b1.val + (2 ^ 8 * b2.val + b3.val)) :=
    Nat.mul_add_lt_is_or (by omega) _
  rw [l, s0, s1, s2, x1, x2, x3, Nat.lor_assoc, Nat.lor_assoc]

theorem block_bits (p : List Byte) (i : Nat) :
    FIPS.block (FIPS.bitsOfBytes p) i = FIPS.bitsOfBytes (blockAt p i) := by
  have e1 : 512 * i = 8 * (i * BLOCK_SIZE) := by simp only [BLOCK_SIZE]; ring
  have e2 : 512 = 8 * ((i + 1) * BLOCK_SIZE - i * BLOCK_SIZE) := by
    simp only [BLOCK_SIZE]; omega
  unfold FIPS.block blockAt
  rw [e1, FIPS.bitsOfBytes_drop]
  conv_lhs => rw [e2]
  rw [FIPS.bitsOfBytes_take]

theorem word_bits (blk : List Byte) (hb : blk.length = 64) (t : Nat) (ht : t < 16) :
    FIPS.word (FIPS.bitsOfBytes blk) t = blockWord blk t := by
  have e1 : 32 * t = 8 * (t * 4) := by ring
  have e2 : 32 = 8 * 4 := rfl
  unfold FIPS.word blockWord
  rw [e1, FIPS.bitsOfBytes_drop]
  conv_lhs => rw [e2]
  rw [FIPS.bitsOfBytes_take, take_four_drop blk 0 (t * 4) (by omega), toNat_four_bytes]

theorem scheduleWord_eq_W (blk : List Byte) (hb : blk.length = 64) (t : Nat) :
    scheduleWord blk t = FIPS.W (FIPS.bitsOfBytes blk) t := by
  induction t using Nat.strong_induction_on with
  | _ t ih =>
    by_cases h : t < 16
    · rw [scheduleWord_lt blk t h, FIPS.W, dif_pos h, word_bits blk hb t h]
    · rw [scheduleWord_ge blk t (by omega), FIPS.W, dif_neg h, ih (t - 16) (by omega),
        ih (t - 15) (by omega), ih (t - 7) (by omega), ih (t - 2) (by omega),
        schedS0_eq, schedS1_eq]
      simp only [add32, FIPS.plus]
      omega

theorem k_eq_K (t : Nat) : k.getD t 0 = FIPS.K t := rfl

theorem roundStep_eq (B : List Bool) (t wt : Nat) (hw : wt = FIPS.W B t) (V : FIPS.Words)
    (hV : V.Bounded) : roundStep (k.getD t 0) wt V.toVars = (FIPS.round B t V).toVars := by
  obtain ⟨_, _, _, _, he, _, _, _⟩ := hV
  simp only [roundStep, FIPS.round, FIPS.Words.toVars, k_eq_K, hw, FIPS.Sigma0, FIPS.Sigma1,
    FIPS.Ch, FIPS.Maj, not32_eq_complement _ he,
    rotr_eq_ROTR _ 2 (by decide) (by decide), rotr_eq_ROTR _ 6 (by decide) (by decide),
    rotr_eq_ROTR _ 11 (by decide) (by decide), rotr_eq_ROTR _ 13 (by decide) (by decide),
    rotr_eq_ROTR _ 22 (by decide) (by decide), rotr_eq_ROTR _ 25 (by decide) (by decide)]
  rfl

theorem plus_lt (x y : Nat) : FIPS.plus x y < 2 ^ 32 :=
  Nat.mod_lt _ (by decide)

theorem round_bounded (B : List Bool) (t : Nat) (V : FIPS.Words) (hV : V.Bounded) :
    (FIPS.round B t V).Bounded := by
  obtain ⟨ha, hb, hc, _, he, hf, hg, _⟩ := hV
  exact ⟨plus_lt _ _, ha, hb, hc, plus_lt _ _, he, hf, hg⟩

theorem rounds_bounded (B : List Bool) (V : FIPS.Words) (hV : V.Bounded) (n : Nat) :
    (FIPS.rounds B V n).Bounded := by
  induction n with
  | zero => exact hV
  | succ n ih => exact round_bounded B n _ ih

theorem roundsUpTo_eq (blk : List Byte) (hb : blk.length = 64) (V : FIPS.Words)
    (hV : V.Bounded) (n : Nat) :
    roundsUpTo (scheduleWord blk) V.toVars n
      = (FIPS.rounds (FIPS.bitsOfBytes blk) V n).toVars := by
  induction n with
  | zero => rfl
  | succ n ih =>
    rw [roundsUpTo, ih, FIPS.rounds]
    exact roundStep_eq _ n _ (scheduleWord_eq_W blk hb n) _ (rounds_bounded _ V hV n)

theorem compress_bounded (H : FIPS.Words) (B : List Bool) : (FIPS.compress H B).Bounded :=
  ⟨plus_lt _ _, plus_lt _ _, plus_lt _ _, plus_lt _ _, plus_lt _ _, plus_lt _ _, plus_lt _ _,
    plus_lt _ _⟩

theorem compressBlock_eq (blk : List Byte) (hb : blk.length = 64) (H : FIPS.Words)
    (hH : H.Bounded) :
    compressBlock H.toList blk = (FIPS.compress H (FIPS.bitsOfBytes blk)).toList := by
  have e : varsOf H.toList = H.toVars := rfl
  unfold compressBlock
  rw [e, roundsUpTo_eq blk hb H hH 64]
  simp only [addVars, FIPS.compress, FIPS.Words.toList, FIPS.Words.toVars, add32, FIPS.plus,
    List.getD_cons_zero, List.getD_cons_succ, Nat.add_comm]

theorem H0_bounded : FIPS.H0.Bounded := by
  unfold FIPS.Words.Bounded FIPS.H0
  decide

theorem hashValue_bounded (P : List Bool) (i : Nat) : (FIPS.hashValue P i).Bounded := by
  cases i with
  | zero => exact H0_bounded
  | succ i => exact compress_bounded _ _

theorem stateAfter_eq (p : List Byte) (i : Nat) (h : i * 64 ≤ p.length) :
    stateAfter p i = (FIPS.hashValue (FIPS.bitsOfBytes p) i).toList := by
  induction i with
  | zero => rfl
  | succ i ih =>
    rw [stateAfter, ih (by omega), FIPS.hashValue, block_bits,
      compressBlock_eq _ (blockAt_length p i h) _ (hashValue_bounded _ i)]

theorem zeroBits_eq (n : Nat) : FIPS.zeroBits (8 * n) = 7 + 8 * (padLenOf n - 1) := by
  unfold FIPS.zeroBits
  rw [Nat.find_eq_iff, padLenOf_eq]
  constructor
  · omega
  · intro k hk
    omega

theorem pad_bits (m : List Byte) (h : m.length < 2 ^ 61) :
    FIPS.pad (FIPS.bitsOfBytes m) = FIPS.bitsOfBytes (paddedOf m) := by
  have hb : bitLenOf m.length = 8 * m.length := by
    unfold bitLenOf; omega
  have e80 : FIPS.bitsOfBytes [byte 0x80] = true :: List.replicate 7 false := by decide
  unfold FIPS.pad paddedOf
  rw [FIPS.bitsOfBytes_append, FIPS.bitsOfBytes_append, FIPS.bitsOfBytes_append,
    FIPS.bitsOfBytes_lengthBytes, FIPS.bitsOfBytes_replicate_zero, e80, FIPS.bitsOfBytes_length,
    zeroBits_eq, hb, List.replicate_add]
  simp

theorem bitsOfBytes_injective (x y : List Byte)
    (h : FIPS.bitsOfBytes x = FIPS.bitsOfBytes y) : x = y := by
  induction x generalizing y with
  | nil =>
    cases y with
    | nil => rfl
    | cons b y =>
      have := congrArg List.length h
      rw [FIPS.bitsOfBytes_length, FIPS.bitsOfBytes_length] at this
      simp at this
  | cons a x ih =>
    cases y with
    | nil =>
      have := congrArg List.length h
      rw [FIPS.bitsOfBytes_length, FIPS.bitsOfBytes_length] at this
      simp at this
    | cons b y =>
      rw [FIPS.bitsOfBytes_cons, FIPS.bitsOfBytes_cons] at h
      have hlen : (FIPS.binary 8 a.val).length = (FIPS.binary 8 b.val).length := by
        rw [FIPS.binary_length, FIPS.binary_length]
      obtain ⟨h1, h2⟩ := List.append_inj h hlen
      have hv := congrArg FIPS.toNat h1
      rw [FIPS.toNat_binary, FIPS.toNat_binary] at hv
      have ha := a.isLt
      have hb := b.isLt
      have hab : a = b := Fin.ext (by omega)
      rw [hab, ih y h2]

/-- The FIPS 180-4 digest of the bits of `m` is the bit string of the closed
form `digestOf m` of the program's result. -/
theorem sha256_bits_digestOf (m : List Byte) (h : m.length < 2 ^ 61) :
    FIPS.sha256 (FIPS.bitsOfBytes m) = some (FIPS.bitsOfBytes (digestOf m)) := by
  have hl : (FIPS.bitsOfBytes m).length < 2 ^ 64 := by
    rw [FIPS.bitsOfBytes_length]; omega
  have hN : (FIPS.bitsOfBytes (paddedOf m)).length / 512 = (paddedOf m).length / BLOCK_SIZE := by
    rw [FIPS.bitsOfBytes_length]
    simp only [BLOCK_SIZE]
    omega
  have hle : (paddedOf m).length / BLOCK_SIZE * 64 ≤ (paddedOf m).length :=
    Nat.div_mul_le_self _ _
  unfold FIPS.sha256 digestOf
  rw [if_pos hl, pad_bits m h, hN, stateAfter_eq _ _ hle]
  simp only [FIPS.Words.toList, FIPS.concatWords, List.flatMap_cons, List.flatMap_nil,
    FIPS.bitsOfBytes_append, FIPS.bitsOfBytes_wordBytes, FIPS.bitsOfBytes_nil,
    List.append_nil, List.append_assoc]

/-- The example of the standard: the FIPS 180-4 digest of the 24-bit message
`"abc"` is `ba7816bf 8f01cfea 414140de 5dae2223 b00361a3 96177a9c b410ff61 f20015ad`. -/
theorem sha256_abc_example :
    FIPS.sha256 (FIPS.bitsOfBytes [byte 0x61, byte 0x62, byte 0x63])
      = some (FIPS.bitsOfBytes abcDigest) := by
  have h1 : SHA256 [byte 0x61, byte 0x62, byte 0x63] = some abcDigest := by decide!
  have h2 := SHA256_eq [byte 0x61, byte 0x62, byte 0x63]
  have h3 : digestOf [byte 0x61, byte 0x62, byte 0x63] = abcDigest :=
    Option.some.inj (h2.symm.trans h1)
  rw [sha256_bits_digestOf _ (by decide), h3]

/-- C1: for every byte sequence `m` of fewer than `2^61` bytes, `SHA256 m`
returns the SHA-256 digest of `m` as defined by FIPS 180-4: the bit string of
the returned bytes is the digest that the standard assigns to the bit string of
`m` (padding, message schedule, 64 rounds per 512-bit block from the initial
hash value, concatenation of the 8 final words). -/
theorem SHA256_eq_FIPS (m : List Byte) (h : m.length < 2 ^ 61) :
    ∃ d, SHA256 m = some d
      ∧ FIPS.sha256 (FIPS.bitsOfBytes m) = some (FIPS.bitsOfBytes d) :=
  ⟨digestOf m, SHA256_eq m, sha256_bits_digestOf m h⟩

/-- Witness for C1 at the input `"abc"`. -/
theorem SHA256_eq_FIPS_witness :
    ∃ d, SHA256 [byte 0x61, byte 0x62, byte 0x63] = some d
      ∧ FIPS.sha256 (FIPS.bitsOfBytes [byte 0x61, byte 0x62, byte 0x63])
          = some (FIPS.bitsOfBytes d) :=
  SHA256_eq_FIPS [byte 0x61, byte 0x62, byte 0x63] (by decide)

/-- C2: `SHA256` of the empty byte sequence returns the 32 bytes
`e3b0c442 98fc1c14 9afbf4c8 996fb924 27ae41e4 649b934c a495991b 7852b855`. -/
theorem SHA256_empty : SHA256 [] = some emptyDigest := by
  decide!

/-- C3: `SHA256` of the three bytes `0x61 0x62 0x63` returns the 32 bytes
`ba7816bf 8f01cfea 414140de 5dae2223 b00361a3 96177a9c b410ff61 f20015ad`. -/
theorem SHA256_abc : SHA256 [byte 0x61, byte 0x62, byte 0x63] = some abcDigest := by
  decide!

/-! ## The padding length -/

/-- C19: the value `padLen = 64 - ((n + 8) mod 64)` computed in `padData` lies in
`1..64`, so the branch `if padLen == 0` is never taken and leaves `padLen`
unchanged; the value 64 (one extra block) arises exactly when `n mod 64 = 56`. -/
theorem padLen_branch_dead (n : Nat) :
    1 ≤ padLenInit n ∧ padLenInit n ≤ 64 ∧ padLenInit n ≠ 0
      ∧ padLenOf n = padLenInit n ∧ (n % 64 = 56 ↔ padLenInit n = 64) := by
  have e : padLenInit n = 64 - (n + 8) % 64 := rfl
  have e' := padLenOf_eq n
  rw [e', e]
  omega

/-! ## The function `rotr` -/

theorem testBit_of_lt_32 (x : Nat) (hx : x < 2 ^ 32) (j : Nat) (hj : 32 ≤ j) :
    x.testBit j = false :=
  Nat.testBit_lt_two_pow (lt_of_lt_of_le hx (Nat.pow_le_pow_right (by decide) hj))

theorem rotr_zero (x : Nat) : rotr x 0 = x := by
  simp [rotr, shr32, shl32, usub]

theorem rotr_32 (x : Nat) (hx : x < 2 ^ 32) : rotr x 32 = x := by
  simp [rotr, shr32, shl32, usub]
  omega

theorem rotr_mid (x n : Nat) (h1 : 0 < n) (h2 : n < 32) :
    rotr x n = (x >>> n) ||| ((x <<< (32 - n)) % 2 ^ 32) :=
  rotr_eq_ROTR x n h2 h1

theorem rotr_big (x n : Nat) (h1 : 32 < n) (h2 : n < 2 ^ 64) : rotr x n = 0 := by
  have e : usub 32 n = 2 ^ 64 + 32 - n := by
    unfold usub
    omega
  unfold rotr shr32 shl32
  rw [e, if_neg (by omega), if_neg (by omega)]
  rfl

theorem rotr_testBit_aux (x n : Nat) (hx : x < 2 ^ 32) (hn : n ≤ 32) (i : Nat) (hi : i < 32) :
    (rotr x n).testBit i = x.testBit ((i + n) % 32) := by
  rcases Nat.eq_zero_or_pos n with h0 | hpos
  · subst h0
    rw [rotr_zero, Nat.add_zero, Nat.mod_eq_of_lt hi]
  · rcases Nat.lt_or_ge n 32 with hlt | hge
    · rw [rotr_mid x n hpos hlt, Nat.testBit_or, Nat.testBit_shiftRight,
        Nat.testBit_mod_two_pow, Nat.testBit_shiftLeft]
      by_cases hc : i + n < 32
      · have e1 : (i + n) % 32 = i + n := Nat.mod_eq_of_lt hc
        have e2 : ¬ (i ≥ 32 - n) := by omega
        rw [e1]
        simp [e2, Nat.add_comm]
      · have e1 : (i + n) % 32 = i - (32 - n) := by omega
        have e2 : i ≥ 32 - n := by omega
        have e3 : x.testBit (n + i) = false := testBit_of_lt_32 x hx _ (by omega)
        simp [e1, e2, e3, hi]
    · have e : n = 32 := by omega
      subst e
      have e1 : (i + 32) % 32 = i := by omega
      rw [rotr_32 x hx, e1]

/-- C16: for every 32-bit word `x` and every count `0 ≤ n ≤ 32`, `rotr x n` is
the circular right rotation of `x` by `n` bits: bit `i` of the result is bit
`(i + n) mod 32` of `x` for `i` in `0..31`, and the result is a 32-bit word. -/
theorem rotr_is_rotation (x n : Nat) (hx : x < 2 ^ 32) (hn : n ≤ 32) :
    rotr x n < 2 ^ 32 ∧ ∀ i, i < 32 → (rotr x n).testBit i = x.testBit ((i + n) % 32) := by
  refine ⟨?_, fun i hi => rotr_testBit_aux x n hx hn i hi⟩
  apply Nat.lt_pow_two_of_testBit
  intro j hj
  rcases Nat.eq_zero_or_pos n with h0 | hpos
  · subst h0
    rw [rotr_zero]
    exact testBit_of_lt_32 x hx j hj
  · rcases Nat.lt_or_ge n 32 with hlt | hge
    · rw [rotr_mid x n hpos hlt, Nat.testBit_or, Nat.testBit_shiftRight,
        Nat.testBit_mod_two_pow, testBit_of_lt_32 x hx (n + j) (by omega)]
      have : ¬ j < 32 := by omega
      simp [this]
    · have e : n = 32 := by omega
      subst e
      rw [rotr_32 x hx]
      exact testBit_of_lt_32 x hx j hj

/-- Witness for C16 at the word `0x80000001` and the count 7. -/
theorem rotr_is_rotation_witness :
    rotr 0x80000001 7 < 2 ^ 32
      ∧ ∀ i, i < 32 → (rotr 0x80000001 7).testBit i = (0x80000001 : Nat).testBit ((i + 7) % 32) :=
  rotr_is_rotation 0x80000001 7 (by decide) (by decide)

/-- C20 fails at the word 1 and the count 33: `rotr 1 33` is 0 (both shifts have
a count of 32 or more), while `rotr 1 (33 mod 32)` is `0x80000000`. -/
theorem rotr_33_not_rotation : rotr 1 33 ≠ rotr 1 (33 % 32) := by
  decide

/-- C20 (amended): for every 32-bit word `x` and every unsigned count `n`,
`rotr x n = rotr x (n mod 32)` when `n ≤ 32`, and `rotr x n = 0` when `n > 32`. -/
theorem rotr_any_count (x n : Nat) (hx : x < 2 ^ 32) (hn : n < 2 ^ 64) :
    rotr x n = if n ≤ 32 then rotr x (n % 32) else 0 := by
  by_cases h : n ≤ 32
  · rw [if_pos h]
    rcases Nat.lt_or_ge n 32 with hlt | hge
    · rw [Nat.mod_eq_of_lt hlt]
    · have e : n = 32 := by omega
      subst e
      rw [rotr_32 x hx]
      exact (rotr_zero x).symm
  · rw [if_neg h]
    exact rotr_big x n (by omega) hn

/-- Witness for C20 (amended) at the word 1 and the count 33. -/
theorem rotr_any_count_witness : rotr 1 33 = if 33 ≤ 32 then rotr 1 (33 % 32) else 0 :=
  rotr_any_count 1 33 (by decide) (by decide)

/-! ## The constants -/

theorem isPrime_iff (p : Nat) : isPrime p = true ↔ p.Prime := by
  rw [Nat.prime_def]
  simp only [isPrime, Bool.and_eq_true, decide_eq_true_eq, List.all_eq_true, List.mem_range,
    Bool.or_eq_true, bne_iff_ne, ne_eq]
  constructor
  · rintro ⟨h2, h⟩
    refine ⟨h2, ?_⟩
    intro m hm
    rcases Nat.lt_or_ge m p with hlt | hge
    · rcases h m hlt with h1 | h1
      · left
        have : m ≠ 0 := by
          rintro rfl
          rw [Nat.zero_dvd] at hm
          omega
        omega
      · exact absurd (Nat.mod_eq_zero_of_dvd hm) h1
    · right
      exact Nat.le_antisymm (Nat.le_of_dvd (by omega) hm) hge
  · rintro ⟨h2, h⟩
    refine ⟨h2, ?_⟩
    intro d hd
    by_cases hd2 : d < 2
    · exact Or.inl hd2
    · right
      intro hmod
      rcases h d (Nat.dvd_of_mod_eq_zero hmod) with h1 | h1 <;> omega

theorem filter_prime_eq (n : Nat) :
    (List.range n).filter (fun p => decide p.Prime) = (List.range n).filter isPrime := by
  apply List.filter_congr
  intro p _
  rw [Bool.eq_iff_iff, decide_eq_true_eq]
  exact (isPrime_iff p).symm

/-- C14: the 8 initial hash values are the first 32 bits of the fractional parts
of the square roots of the first 8 primes `2, .., 19`: with `p` the `i`-th prime,
`r = floor (sqrt p)` and `n = r * 2^32 + hashValues[i]`, the word is below `2^32`
and `n^2 ≤ p * 2^64 < (n + 1)^2`. -/
theorem hashValues_sqrt :
    (List.range 20).filter (fun p => decide p.Prime) = primes.take 8
      ∧ ∀ i : Fin 8, hashValues.getD i 0 < 2 ^ 32
        ∧ (Nat.sqrt (primes.getD i 0) * 2 ^ 32 + hashValues.getD i 0) ^ 2
            ≤ primes.getD i 0 * 2 ^ 64
        ∧ primes.getD i 0 * 2 ^ 64
            < (Nat.sqrt (primes.getD i 0) * 2 ^ 32 + hashValues.getD i 0 + 1) ^ 2 := by
  refine ⟨?_, ?_⟩
  · rw [filter_prime_eq]
    decide!
  · decide!

/-- C15: the 64 round constants are the first 32 bits of the fractional parts of
the cube roots of the first 64 primes `2, .., 311`: with `p` the `t`-th prime,
`r = floor (cbrt p)` and `n = r * 2^32 + k[t]`, the word is below `2^32` and
`n^3 ≤ p * 2^96 < (n + 1)^3`. -/
theorem k_cbrt :
    ((List.range 312).filter (fun p => decide p.Prime) = primes ∧ primes.length = 64)
      ∧ ∀ t : Fin 64,
        (cbrtFloor (primes.getD t 0) ^ 3 ≤ primes.getD t 0
          ∧ primes.getD t 0 < (cbrtFloor (primes.getD t 0) + 1) ^ 3)
        ∧ k.getD t 0 < 2 ^ 32
        ∧ (cbrtFloor (primes.getD t 0) * 2 ^ 32 + k.getD t 0) ^ 3 ≤ primes.getD t 0 * 2 ^ 96
        ∧ primes.getD t 0 * 2 ^ 96
            < (cbrtFloor (primes.getD t 0) * 2 ^ 32 + k.getD t 0 + 1) ^ 3 := by
  refine ⟨⟨?_, rfl⟩, ?_⟩
  · rw [filter_prime_eq]
    decide!
  · decide!

/-! ## The schedule and the rounds in the words of the specification -/

theorem getD_of_index {α : Type} (xs : List α) (i : Nat) (d v : α) (h : index xs i = some v) :
    xs.getD i d = v := by
  unfold index at h
  rw [List.getD_eq_getElem?_getD, h]
  rfl

theorem blockWord_eq_sum (block : List Byte) (t : Nat) :
    blockWord block t
      = (block.getD (4 * t) 0).val * 2 ^ 24 + (block.getD (4 * t + 1) 0).val * 2 ^ 16
        + (block.getD (4 * t + 2) 0).val * 2 ^ 8 + (block.getD (4 * t + 3) 0).val := by
  have e : blockWord block t = FIPS.toNat (FIPS.bitsOfBytes
      [block.getD (t * 4) 0, block.getD (t * 4 + 1) 0, block.getD (t * 4 + 2) 0,
        block.getD (t * 4 + 3) 0]) := by
    rw [toNat_four_bytes]
    rfl
  have h0 := (block.getD (t * 4) 0).isLt
  have h1 := (block.getD (t * 4 + 1) 0).isLt
  have h2 := (block.getD (t * 4 + 2) 0).isLt
  have h3 := (block.getD (t * 4 + 3) 0).isLt
  rw [e, Nat.mul_comm 4 t]
  simp only [FIPS.bitsOfBytes_cons, FIPS.bitsOfBytes_nil, FIPS.toNat_append,
    FIPS.toNat_binary, List.length_append, FIPS.binary_length, List.length_nil,
    List.append_nil]
  norm_num
  omega

/-- C12: for every 64-byte block the schedule loops return a schedule `w` of
exactly 64 words with `w[t] = block[4t]*2^24 + block[4t+1]*2^16 + block[4t+2]*2^8
+ block[4t+3]` for `t` in `0..15` and `w[t] = (w[t-16] + s0(w[t-15]) + w[t-7] +
s1(w[t-2])) mod 2^32` for `t` in `16..63`, where `s0(x) = rotr(x,7) xor rotr(x,18)
xor (x >> 3)` and `s1(x) = rotr(x,17) xor rotr(x,19) xor (x >> 10)`. -/
theorem schedule_words (block : List Byte) (hb : block.length = 64) :
    ∃ w, prepareSchedule block = some w ∧ w.length = 64
      ∧ (∀ t, t < 16 → w.getD t 0
          = (block.getD (4 * t) 0).val * 2 ^ 24 + (block.getD (4 * t + 1) 0).val * 2 ^ 16
            + (block.getD (4 * t + 2) 0).val * 2 ^ 8 + (block.getD (4 * t + 3) 0).val)
      ∧ (∀ t, 16 ≤ t → t < 64 → w.getD t 0
          = (w.getD (t - 16) 0
              + (rotr (w.getD (t - 15) 0) 7 ^^^ rotr (w.getD (t - 15) 0) 18
                  ^^^ (w.getD (t - 15) 0 >>> 3))
              + w.getD (t - 7) 0
              + (rotr (w.getD (t - 2) 0) 17 ^^^ rotr (w.getD (t - 2) 0) 19
                  ^^^ (w.getD (t - 2) 0 >>> 10))) % 2 ^ 32) := by
  obtain ⟨w, hw, hlen, hinv⟩ := prepareSchedule_spec block hb
  have hget : ∀ j, j < 64 → w.getD j 0 = scheduleWord block j :=
    fun j hj => getD_of_index w j 0 _ (hinv j hj)
  refine ⟨w, hw, hlen, ?_, ?_⟩
  · intro t ht
    rw [hget t (by omega), scheduleWord_lt block t ht, blockWord_eq_sum]
  · intro t h16 ht
    rw [hget t ht, hget (t - 16) (by omega), hget (t - 15) (by omega), hget (t - 7) (by omega),
      hget (t - 2) (by omega), scheduleWord_ge block t h16]
    have e3 : ∀ x, shr32 x 3 = x >>> 3 := fun x => by simp [shr32]
    have e10 : ∀ x, shr32 x 10 = x >>> 10 := fun x => by simp [shr32]
    simp only [schedS0, schedS1, add32, e3, e10]
    omega

/-- Witness for C12 at the block of 64 zero bytes. -/
theorem schedule_words_witness :
    ∃ w, prepareSchedule (List.replicate 64 (byte 0)) = some w ∧ w.length = 64
      ∧ (∀ t, t < 16 → w.getD t 0
          = ((List.replicate 64 (byte 0)).getD (4 * t) 0).val * 2 ^ 24
            + ((List.replicate 64 (byte 0)).getD (4 * t + 1) 0).val * 2 ^ 16
            + ((List.replicate 64 (byte 0)).getD (4 * t + 2) 0).val * 2 ^ 8
            + ((List.replicate 64 (byte 0)).getD (4 * t + 3) 0).val)
      ∧ (∀ t, 16 ≤ t → t < 64 → w.getD t 0
          = (w.getD (t - 16) 0
              + (rotr (w.getD (t - 15) 0) 7 ^^^ rotr (w.getD (t - 15) 0) 18
                  ^^^ (w.getD (t - 15) 0 >>> 3))
              + w.getD (t - 7) 0
              + (rotr (w.getD (t - 2) 0) 17 ^^^ rotr (w.getD (t - 2) 0) 19
                  ^^^ (w.getD (t - 2) 0 >>> 10))) % 2 ^ 32) :=
  schedule_words (List.replicate 64 (byte 0)) (List.length_replicate 64 (byte 0))

theorem roundBody_getD (w : List Nat) (hw : w.length = 64) (t : Nat) (ht : t < 64) (v : Vars) :
    roundBody w t v = some (roundStep (k.getD t 0) (w.getD t 0) v) := by
  unfold roundBody
  rw [index_of_lt k t 0 (by rw [k_length]; exact ht), index_of_lt w t 0 (by omega)]
  simp only [Option.bind_eq_bind, Option.some_bind]
  rfl

theorem rounds_getD (w : List Nat) (hw : w.length = 64) (v : Vars) :
    forLoop 0 64 (roundBody w) v = some (roundsUpTo (fun t => w.getD t 0) v 64) := by
  obtain ⟨v', h1, h2⟩ := forLoop_invariant (roundBody w)
    (fun t u => u = roundsUpTo (fun t => w.getD t 0) v t) 0 64 (by omega) v rfl
    (fun j u _ hj hu => ⟨_, roundBody_getD w hw j hj u, by rw [hu]; rfl⟩)
  rw [h1, h2]

theorem compressWith_eq (hv w : List Nat) (hl : hv.length = 8) (hw : w.length = 64) :
    compressWith hv w
      = some (addVars hv (roundsUpTo (fun t => w.getD t 0) (varsOf hv) 64)) := by
  have e : compressWith hv w
      = (initVars hv).bind (fun v => (forLoop 0 64 (roundBody w) v).bind (addBack hv)) := rfl
  rw [e, initVars_eq hv hl, Option.some_bind, rounds_getD w hw, Option.some_bind,
    addBack_eq hv hl]

theorem roundStep_eq_specRound (kt wt : Nat) (v : Vars) (he : v.e < 2 ^ 32) :
    roundStep kt wt v = specRound kt wt v := by
  have hc : not32 v.e = 2 ^ 32 - 1 - v.e := not32_eq_complement v.e he
  simp only [roundStep, specRound, hc, add32]
  congr 1 <;> omega

theorem roundStep_bounded (kt wt : Nat) (v : Vars) (hv : v.Bounded) :
    (roundStep kt wt v).Bounded := by
  obtain ⟨ha, hb, hc, _, he, hf, hg, _⟩ := hv
  exact ⟨Nat.mod_lt _ (by decide), ha, hb, hc, Nat.mod_lt _ (by decide), he, hf, hg⟩

theorem roundsUpTo_bounded (W : Nat → Nat) (v : Vars) (hv : v.Bounded) (n : Nat) :
    (roundsUpTo W v n).Bounded := by
  induction n with
  | zero => exact hv
  | succ n ih => exact roundStep_bounded _ _ _ ih

theorem roundsUpTo_eq_foldl (w : List Nat) (v : Vars) (hv : v.Bounded) (n : Nat) :
    roundsUpTo (fun t => w.getD t 0) v n
      = (List.range n).foldl (fun u t => specRound (k.getD t 0) (w.getD t 0) u) v := by
  induction n with
  | zero => rfl
  | succ n ih =>
    rw [List.range_succ, List.foldl_append, ← ih, roundsUpTo]
    exact roundStep_eq_specRound _ _ _ (roundsUpTo_bounded _ v hv n).2.2.2.2.1

theorem varsOf_bounded (hv : List Nat) (hl : hv.length = 8) (hb : ∀ x ∈ hv, x < 2 ^ 32) :
    (varsOf hv).Bounded := by
  obtain ⟨a, b, c, d, e, f, g, i, rfl⟩ := length_eight hv hl
  simp only [List.mem_cons, List.mem_singleton, List.not_mem_nil, or_false,
    forall_eq_or_imp, forall_eq] at hb
  exact hb

/-- C13: for every 8-word hash state `H` and every 64-word schedule `w`, the
state after one block is `(H[i] + v[i]) mod 2^32` for `i` in `0..7`, where `v` is
obtained from `v = H` by the 64 rounds `t = 0, .., 63` in order, each as worded in
the specification (`specRound`). -/
theorem compress_rounds (hv w : List Nat) (hl : hv.length = 8)
    (hb : ∀ x ∈ hv, x < 2 ^ 32) (hw : w.length = 64) :
    compressWith hv w
      = some ((List.range 8).map (fun i =>
          (hv.getD i 0 + (specRounds w (varsOf hv)).toList.getD i 0) % 2 ^ 32)) := by
  rw [compressWith_eq hv w hl hw, roundsUpTo_eq_foldl w _ (varsOf_bounded hv hl hb) 64]
  rfl

/-- Witness for C13 at the initial hash values and the all-zero schedule. -/
theorem compress_rounds_witness :
    compressWith hashValues (List.replicate 64 0)
      = some ((List.range 8).map (fun i =>
          (hashValues.getD i 0
            + (specRounds (List.replicate 64 0) (varsOf hashValues)).toList.getD i 0)
              % 2 ^ 32)) :=
  compress_rounds hashValues (List.replicate 64 0) rfl hashValues_lt
    (List.length_replicate 64 0)

/-! ## The block loop as a fold over the blocks -/

/-- The body of the block loop is the slicing of block `i` followed by the
one-block compression step. -/
theorem blockBody_eq_compressOne (paddedData : List Byte) (i : Nat) (hv : List Nat) :
    blockBody paddedData i hv
      = (slice paddedData (i * BLOCK_SIZE) ((i + 1) * BLOCK_SIZE)).bind (compressOne hv) :=
  rfl

theorem compressOne_eq (hv : List Nat) (hl : hv.length = 8) (block : List Byte)
    (hb : block.length = 64) : compressOne hv block = some (compressBlock hv block) := by
  obtain ⟨w, h1, inv⟩ := prepareSchedule_spec block hb
  have e : compressOne hv block
      = (prepareSchedule block).bind (fun w => (initVars hv).bind
          (fun v => (forLoop 0 64 (roundBody w) v).bind (addBack hv))) := rfl
  rw [e, h1, Option.some_bind, initVars_eq hv hl, Option.some_bind, rounds_eq block w inv,
    Option.some_bind, addBack_eq hv hl]
  rfl

theorem foldlM_compressOne (blocks : List (List Byte)) (hb : ∀ b ∈ blocks, b.length = 64) :
    ∀ hv : List Nat, hv.length = 8 →
      blocks.foldlM compressOne hv = some (blocks.foldl compressBlock hv) := by
  induction blocks with
  | nil => intro hv _; rfl
  | cons b bs ih =>
    intro hv hl
    rw [List.foldlM_cons, compressOne_eq hv hl b (hb b (List.mem_cons_self b bs)),
      List.foldl_cons]
    exact ih (fun x hx => hb x (List.mem_cons_of_mem b hx)) _ (compressBlock_length hv b)

theorem blockAt_eq (p : List Byte) (i : Nat) : blockAt p i = (p.drop (64 * i)).take 64 := by
  have e1 : i * BLOCK_SIZE = 64 * i := by simp only [BLOCK_SIZE]; omega
  have e2 : (i + 1) * BLOCK_SIZE - i * BLOCK_SIZE = 64 := by simp only [BLOCK_SIZE]; omega
  unfold blockAt
  rw [e2, e1]

theorem stateAfter_eq_foldl (p : List Byte) (n : Nat) :
    stateAfter p n
      = ((List.range n).map (fun i => (p.drop (64 * i)).take 64)).foldl compressBlock
          hashValues := by
  induction n with
  | zero => rfl
  | succ n ih =>
    rw [List.range_succ, List.map_append, List.foldl_append, ← ih, stateAfter, blockAt_eq]
    rfl

theorem blocksOf_length (p : List Byte) : (blocksOf p).length = p.length / 64 := by
  simp [blocksOf]

theorem blocksOf_block_length (p : List Byte) : ∀ b ∈ blocksOf p, b.length = 64 := by
  intro b hb
  simp only [blocksOf, List.mem_map, List.mem_range] at hb
  obtain ⟨i, hi, rfl⟩ := hb
  rw [List.length_take, List.length_drop]
  omega

theorem flatten_blocks_take (p : List Byte) (n : Nat) :
    ((List.range n).map (fun i => (p.drop (64 * i)).take 64)).flatten = p.take (64 * n) := by
  induction n with
  | zero => simp
  | succ n ih =>
    rw [List.range_succ, List.map_append, List.flatten_append, ih]
    have e : 64 * (n + 1) = 64 * n + 64 := by ring
    rw [e, List.take_add]
    simp

theorem blocksOf_flatten (p : List Byte) (h : p.length % 64 = 0) :
    (blocksOf p).flatten = p := by
  unfold blocksOf
  rw [flatten_blocks_take, List.take_of_length_le]
  omega

theorem stateAfter_blocksOf (p : List Byte) :
    stateAfter p (p.length / BLOCK_SIZE) = (blocksOf p).foldl compressBlock hashValues :=
  stateAfter_eq_foldl p _

/-- C11: `SHA256 m` is the serialisation of the state obtained by a left fold of
the one-block compression step over the consecutive 64-byte blocks of
`padData m`, in order, from the 8 initial constants; the blocks make up the
padded message and there are `len (padData m) / 64 = (n + 8) / 64 + 1` of them. -/
theorem SHA256_block_fold (m : List Byte) :
    ∃ p, padData m = some p
      ∧ ((blocksOf p).flatten = p ∧ ∀ b ∈ blocksOf p, b.length = 64)
      ∧ ((blocksOf p).length = p.length / 64 ∧ p.length / 64 = (m.length + 8) / 64 + 1)
      ∧ finalState m = (blocksOf p).foldlM compressOne hashValues
      ∧ SHA256 m = ((blocksOf p).foldlM compressOne hashValues).bind produceHash := by
  have hlen := paddedOf_length m
  have hpl := padLenOf_eq m.length
  have hfold := foldlM_compressOne (blocksOf (paddedOf m)) (blocksOf_block_length _)
    hashValues rfl
  refine ⟨paddedOf m, padData_eq m, ⟨blocksOf_flatten _ (by omega), blocksOf_block_length _⟩,
    ⟨blocksOf_length _, by omega⟩, ?_, ?_⟩
  · rw [finalState_eq, hfold, stateAfter_blocksOf]
  · rw [SHA256_eq, hfold, Option.some_bind,
      produceHash_eq _ (by rw [← stateAfter_blocksOf]; exact stateAfter_length _ _),
      digestOf, stateAfter_blocksOf]

/-! ## Injectivity of the padding -/

theorem paddedOf_getElem?_length (m : List Byte) :
    (paddedOf m)[m.length]? = some (byte 0x80) := by
  rw [paddedOf, List.append_assoc, List.append_assoc,
    List.getElem?_append_right (Nat.le_refl _), Nat.sub_self, List.singleton_append,
    List.getElem?_cons_zero]

theorem paddedOf_getElem?_zero (m : List Byte) (i : Nat) (h1 : m.length < i)
    (h2 : i < m.length + padLenOf m.length) : (paddedOf m)[i]? = some (byte 0) := by
  obtain ⟨j, hj⟩ : ∃ j, i = m.length + (j + 1) := ⟨i - m.length - 1, by omega⟩
  subst hj
  have e : m.length + (j + 1) - m.length = j + 1 := by omega
  rw [paddedOf, List.append_assoc, List.append_assoc,
    List.getElem?_append_right (by omega), e, List.singleton_append,
    List.getElem?_cons_succ,
    List.getElem?_append_left (by rw [List.length_replicate]; omega),
    List.getElem?_replicate, if_pos (by omega)]

theorem paddedOf_length_not_lt (a b : List Byte) (h : paddedOf a = paddedOf b) :
    ¬ a.length < b.length := by
  intro hlt
  have hl := congrArg List.length h
  rw [paddedOf_length, paddedOf_length] at hl
  have hb := padLenOf_pos b.length
  have h1 := paddedOf_getElem?_zero a b.length hlt (by omega)
  have h2 := paddedOf_getElem?_length b
  rw [h, h2] at h1
  exact absurd (Option.some.inj h1) (by decide)

theorem paddedOf_eq_imp (a b : List Byte) (h : paddedOf a = paddedOf b) : a = b := by
  have h1 := paddedOf_length_not_lt a b h
  have h2 := paddedOf_length_not_lt b a h.symm
  exact paddedOf_injective a b h (by omega)

/-- C17: `padData` is injective on byte sequences of any length (also when the
64-bit length field wraps): equal padded messages come from equal inputs. -/
theorem padData_injective (a b : List Byte) (h : padData a = padData b) : a = b := by
  rw [padData_eq, padData_eq] at h
  exact paddedOf_eq_imp a b (Option.some.inj h)

/-- Witness for C17 at the input `"abc"`. -/
theorem padData_injective_witness :
    padData [byte 0x61, byte 0x62, byte 0x63] = padData [byte 0x61, byte 0x62, byte 0x63]
      ∧ [byte 0x61, byte 0x62, byte 0x63] = [byte 0x61, byte 0x62, byte 0x63] :=
  ⟨rfl, padData_injective [byte 0x61, byte 0x62, byte 0x63] [byte 0x61, byte 0x62, byte 0x63] rfl⟩

/-! ## Length extension -/

theorem blocksOf_append (p r : List Byte) (h : p.length % 64 = 0) :
    blocksOf (p ++ r) = blocksOf p ++ blocksOf r := by
  obtain ⟨N, hN⟩ : ∃ N, p.length = 64 * N := ⟨p.length / 64, by omega⟩
  have e1 : (p ++ r).length / 64 = N + r.length / 64 := by
    rw [List.length_append, hN]
    omega
  have e2 : p.length / 64 = N := by omega
  unfold blocksOf
  rw [e1, e2, List.range_add, List.map_append, List.map_map]
  congr 1
  · apply List.map_congr_left
    intro i hi
    rw [List.mem_range] at hi
    rw [List.drop_append_of_le_length (by omega),
      List.take_append_of_le_length (by rw [List.length_drop]; omega)]
  · apply List.map_congr_left
    intro j _
    have e3 : 64 * (N + j) = p.length + 64 * j := by rw [hN]; ring
    simp only [Function.comp_apply]
    rw [e3, List.drop_append]

theorem paddedOf_append (x s : List Byte) :
    paddedOf (x ++ s)
      = x ++ (s ++ [byte 0x80]
          ++ List.replicate (padLenOf (x.length + s.length) - 1) (byte 0)
          ++ lengthBytes (bitLenOf (x.length + s.length))) := by
  simp [paddedOf]

theorem paddedOf_extension (m s : List Byte) :
    paddedOf (paddedOf m ++ s) = paddedOf m ++ extensionTail m.length s := by
  rw [paddedOf_append, paddedOf_length]
  rfl

theorem foldl_compressBlock_length (blocks : List (List Byte)) (hv : List Nat)
    (hl : hv.length = 8) : (blocks.foldl compressBlock hv).length = 8 := by
  induction blocks generalizing hv with
  | nil => exact hl
  | cons b bs ih => exact ih _ (compressBlock_length hv b)

theorem readWords_digestOf (m : List Byte) :
    readWords (digestOf m) = stateAfter (paddedOf m) ((paddedOf m).length / BLOCK_SIZE) :=
  readBack_wordBytes _ (stateAfter_length _ _) (stateAfter_lt _ _)

/-- C18: length extension. For every byte sequence `m` and suffix `s`, the
padded form of `padData m ++ s` starts with `padData m` and continues with bytes
that depend on `len m` and `s` only, and `SHA256 (padData m ++ s)` is the
serialisation of the state obtained from the 8 big-endian words of `SHA256 m` by
compressing, in order, the 64-byte blocks that follow `padData m` there. -/
theorem length_extension (m s : List Byte) :
    ∃ p d p', padData m = some p ∧ SHA256 m = some d ∧ padData (p ++ s) = some p'
      ∧ p'.take p.length = p ∧ p'.drop p.length = extensionTail m.length s
      ∧ SHA256 (p ++ s)
          = ((blocksOf (p'.drop p.length)).foldlM compressOne (readWords d)).bind
              produceHash := by
  have hmod : (paddedOf m).length % 64 = 0 := by
    rw [paddedOf_length, padLenOf_eq]
    omega
  have hext := paddedOf_extension m s
  have hdrop : (paddedOf (paddedOf m ++ s)).drop (paddedOf m).length
      = extensionTail m.length s := by
    rw [hext, List.drop_left]
  have hst : (readWords (digestOf m)).length = 8 := by
    rw [readWords_digestOf]
    exact stateAfter_length _ _
  refine ⟨paddedOf m, digestOf m, paddedOf (paddedOf m ++ s), padData_eq m, SHA256_eq m,
    padData_eq _, ?_, hdrop, ?_⟩
  · rw [hext, List.take_left]
  · rw [hdrop, foldlM_compressOne _ (blocksOf_block_length _) _ hst, Option.some_bind,
      produceHash_eq _ (foldl_compressBlock_length _ _ hst), SHA256_eq, digestOf,
      stateAfter_blocksOf, hext, blocksOf_append _ _ hmod, List.foldl_append,
      ← stateAfter_blocksOf, ← readWords_digestOf]

/-! ## The one-block evaluator agrees with `SHA256` -/

theorem addF_eq (x y : Nat) : addF x y = add32 x y := rfl

theorem rotF_eq (x n : Nat) (h1 : 0 < n) (h2 : n < 32) : rotF x n (32 - n) = rotr x n := by
  rw [rotr_mid x n h1 h2]
  rfl

theorem temp1F_eq (kt wt e f g h : Nat) :
    temp1F kt wt e f g h
      = add32 (add32 (add32 (add32 h (rotr e 6 ^^^ rotr e 11 ^^^ rotr e 25))
          ((e &&& f) ^^^ (not32 e &&& g))) kt) wt := by
  rw [← rotF_eq e 6 (by decide) (by decide), ← rotF_eq e 11 (by decide) (by decide),
    ← rotF_eq e 25 (by decide) (by decide)]
  rfl

theorem temp2F_eq (a b c : Nat) :
    temp2F a b c
      = add32 (rotr a 2 ^^^ rotr a 13 ^^^ rotr a 22) ((a &&& b) ^^^ (a &&& c) ^^^ (b &&& c)) := by
  rw [← rotF_eq a 2 (by decide) (by decide), ← rotF_eq a 13 (by decide) (by decide),
    ← rotF_eq a 22 (by decide) (by decide)]
  rfl

theorem roundsF_cons (kt wt : Nat) (ks ws : List Nat) (v : Vars) :
    roundsF (kt :: ks) (wt :: ws) v.a v.b v.c v.d v.e v.f v.g v.h
      = roundsF ks ws (roundStep kt wt v).a (roundStep kt wt v).b (roundStep kt wt v).c
          (roundStep kt wt v).d (roundStep kt wt v).e (roundStep kt wt v).f
          (roundStep kt wt v).g (roundStep kt wt v).h := by
  rw [roundsF, temp1F_eq, temp2F_eq, addF_eq, addF_eq]
  rfl

/-- The rounds of the evaluator are the fold of `roundStep` over the paired round
constants and schedule words. -/
theorem roundsF_eq_foldl (ks : List Nat) :
    ∀ (ws : List Nat) (v : Vars),
      roundsF ks ws v.a v.b v.c v.d v.e v.f v.g v.h
        = ((ks.zip ws).foldl (fun u p => roundStep p.1 p.2 u) v).toList := by
  induction ks with
  | nil =>
    intro ws v
    rw [roundsF]
    · rfl
    · intro kt ks' wt ws' h
      cases h
  | cons kt ks ih =>
    intro ws v
    cases ws with
    | nil => rfl
    | cons wt ws =>
      rw [roundsF_cons, ih, List.zip_cons_cons, List.foldl_cons]

theorem roundsUpTo_eq_zip (W : Nat → Nat) (v : Vars) (n : Nat) (hn : n ≤ 64) :
    roundsUpTo W v n
      = ((k.take n).zip ((List.range n).map W)).foldl (fun u p => roundStep p.1 p.2 u) v := by
  induction n with
  | zero => rfl
  | succ n ih =>
    have hk : n < k.length := by rw [k_length]; omega
    have e1 : k.take (n + 1) = k.take n ++ [k.getD n 0] := by
      rw [List.take_succ, List.getD_eq_getElem?_getD, List.getElem?_eq_getElem hk]
      rfl
    have e2 : (k.take n).length = ((List.range n).map W).length := by
      rw [List.length_take, List.length_map, List.length_range, k_length]
      omega
    rw [roundsUpTo, ih (by omega), e1, List.range_succ, List.map_append, List.zip_append e2,
      List.foldl_append]
    rfl

theorem wordF_drop (block : List Byte) (i : Nat) (h : 4 * i + 4 ≤ block.length) :
    wordF (block.drop (4 * i)) = blockWord block i := by
  rw [blockWord_eq_sum,
    List.drop_eq_getElem_cons (by omega : 4 * i < block.length),
    List.drop_eq_getElem_cons (by omega : 4 * i + 1 < block.length),
    List.drop_eq_getElem_cons (by omega : 4 * i + 1 + 1 < block.length),
    List.drop_eq_getElem_cons (by omega : 4 * i + 1 + 1 + 1 < block.length),
    List.getD_eq_getElem block 0 (by omega : 4 * i < block.length),
    List.getD_eq_getElem block 0 (by omega : 4 * i + 1 < block.length),
    List.getD_eq_getElem block 0 (by omega : 4 * i + 2 < block.length),
    List.getD_eq_getElem block 0 (by omega : 4 * i + 3 < block.length)]
  rfl

theorem schedule_rev_succ (block : List Byte) (t : Nat) :
    scheduleWord block t :: ((List.range t).map (scheduleWord block)).reverse
      = ((List.range (t + 1)).map (scheduleWord block)).reverse := by
  rw [List.range_succ, List.map_append, List.reverse_append]
  rfl

theorem loadRev_eq (block : List Byte) (hb : 64 ≤ block.length) :
    ∀ n i, i + n ≤ 16 →
      loadRev n (block.drop (4 * i)) (((List.range i).map (scheduleWord block)).reverse)
        = ((List.range (i + n)).map (scheduleWord block)).reverse := by
  intro n
  induction n with
  | zero => intro i _; rfl
  | succ n ih =>
    intro i h
    have e : (block.drop (4 * i)).drop 4 = block.drop (4 * (i + 1)) := by
      rw [List.drop_drop, Nat.mul_add, Nat.mul_one]
    have e3 : i + (n + 1) = i + 1 + n := by omega
    rw [loadRev, e, wordF_drop block i (by omega), ← scheduleWord_lt block i (by omega),
      schedule_rev_succ, ih (i + 1) (by omega), e3]

theorem schedule_rev_sixteen (block : List Byte) (s : Nat) :
    ((List.range (s + 16)).map (scheduleWord block)).reverse
      = scheduleWord block (s + 15) :: scheduleWord block (s + 14)
        :: scheduleWord block (s + 13) :: scheduleWord block (s + 12)
        :: scheduleWord block (s + 11) :: scheduleWord block (s + 10)
        :: scheduleWord block (s + 9) :: scheduleWord block (s + 8)
        :: scheduleWord block (s + 7) :: scheduleWord block (s + 6)
        :: scheduleWord block (s + 5) :: scheduleWord block (s + 4)
        :: scheduleWord block (s + 3) :: scheduleWord block (s + 2)
        :: scheduleWord block (s + 1) :: scheduleWord block (s + 0)
        :: ((List.range s).map (scheduleWord block)).reverse := by
  rw [List.range_add, List.map_append, List.reverse_append]
  rfl

theorem nextWord_eq (block : List Byte) (t : Nat) (ht : 16 ≤ t) :
    nextWord (((List.range t).map (scheduleWord block)).reverse) = scheduleWord block t := by
  obtain ⟨s, rfl⟩ : ∃ s, t = s + 16 := ⟨t - 16, by omega⟩
  have a1 : s + 16 - 16 = s + 0 := by omega
  have a2 : s + 16 - 15 = s + 1 := by omega
  have a3 : s + 16 - 7 = s + 9 := by omega
  have a4 : s + 16 - 2 = s + 14 := by omega
  rw [schedule_rev_sixteen, nextWord, scheduleWord_ge block (s + 16) (by omega), a1, a2, a3, a4,
    schedS0, schedS1, ← rotF_eq _ 7 (by decide) (by decide),
    ← rotF_eq _ 18 (by decide) (by decide), ← rotF_eq _ 17 (by decide) (by decide),
    ← rotF_eq _ 19 (by decide) (by decide)]
  rfl

theorem extendRev_eq (block : List Byte) :
    ∀ n t, 16 ≤ t →
      extendRev n (((List.range t).map (scheduleWord block)).reverse)
        = ((List.range (t + n)).map (scheduleWord block)).reverse := by
  intro n
  induction n with
  | zero => intro t _; rfl
  | succ n ih =>
    intro t ht
    have e3 : t + (n + 1) = t + 1 + n := by omega
    rw [extendRev, nextWord_eq block t ht, schedule_rev_succ, ih (t + 1) (by omega), e3]

/-- The schedule of the evaluator is the schedule of the program. -/
theorem scheduleF_eq (block : List Byte) (hb : 64 ≤ block.length) :
    (extendRev 48 (loadRev 16 block [])).reverse = (List.range 64).map (scheduleWord block) := by
  have h1 := loadRev_eq block hb 16 0 (by omega)
  have h2 := extendRev_eq block 48 16 (by omega)
  simp only [Nat.mul_zero, List.drop_zero, List.range_zero, List.map_nil, List.reverse_nil,
    Nat.zero_add] at h1
  rw [h1, h2, List.reverse_reverse]

theorem compressF_eq (hv : List Nat) (hl : hv.length = 8) (block : List Byte)
    (hb : 64 ≤ block.length) : compressF hv block = compressBlock hv block := by
  obtain ⟨a, b, c, d, e, f, g, i, rfl⟩ := length_eight hv hl
  have hk : k.take 64 = k := List.take_of_length_le (by rw [k_length])
  have hR : roundsF k (extendRev 48 (loadRev 16 block [])).reverse a b c d e f g i
      = (roundsUpTo (scheduleWord block) (varsOf [a, b, c, d, e, f, g, i]) 64).toList := by
    rw [scheduleF_eq block hb, roundsUpTo_eq_zip _ _ 64 (Nat.le_refl 64), hk]
    exact roundsF_eq_foldl k _ (varsOf [a, b, c, d, e, f, g, i])
  have e : compressF [a, b, c, d, e, f, g, i] block
      = match roundsF k (extendRev 48 (loadRev 16 block [])).reverse a b c d e f g i with
        | [a1, b1, c1, d1, e1, f1, g1, h1] =>
          [addF a a1, addF b b1, addF c c1, addF d d1, addF e e1, addF f f1, addF g g1,
            addF i h1]
        | _ => [] := rfl
  rw [e, hR]
  rfl

/-- The evaluator returns the digest of the program on inputs of at most 55 bytes. -/
theorem SHA256_eq_digestF (m : List Byte) (h : m.length ≤ 55) :
    SHA256 m = some (digestF m) := by
  have hlen : (paddedOf m).length = 64 := by
    rw [paddedOf_length, padLenOf_eq]
    omega
  have hN : (paddedOf m).length / BLOCK_SIZE = 1 := by
    rw [hlen]
    rfl
  have hblk : blockAt (paddedOf m) 0 = paddedOf m := by
    rw [blockAt_eq, Nat.mul_zero, List.drop_zero, List.take_of_length_le (by omega)]
  have hst : stateAfter (paddedOf m) 1 = compressF hashValues (paddedOf m) := by
    rw [compressF_eq hashValues rfl (paddedOf m) (by omega), stateAfter, hblk]
    rfl
  rw [SHA256_eq, digestOf, hN, hst, digestF]

/-! ## Distinct digests of the inputs of at most one byte -/

set_option maxRecDepth 100000 in
/-- The evaluator yields the tabulated leading words for inputs 0 to 31. -/
theorem keyTable_chunk0 : ∀ i, i < 32 →
    digestKey (digestF (inputAt (i + 0))) = keyTable.getD (i + 0) 0 := by
  decide!

set_option maxRecDepth 100000 in
/-- The evaluator yields the tabulated leading words for inputs 32 to 63. -/
theorem keyTable_chunk1 : ∀ i, i < 32 →
    digestKey (digestF (inputAt (i + 32))) = keyTable.getD (i + 32) 0 := by
  decide!

set_option maxRecDepth 100000 in
/-- The evaluator yields the tabulated leading words for inputs 64 to 95. -/
theorem keyTable_chunk2 : ∀ i, i < 32 →
    digestKey (digestF (inputAt (i + 64))) = keyTable.getD (i + 64) 0 := by
  decide!

set_option maxRecDepth 100000 in
/-- The evaluator yields the tabulated leading words for inputs 96 to 127. -/
theorem keyTable_chunk3 : ∀ i, i < 32 →
    digestKey (digestF (inputAt (i + 96))) = keyTable.getD (i + 96) 0 := by
  decide!

set_option maxRecDepth 100000 in
/-- The evaluator yields the tabulated leading words for inputs 128 to 159. -/
theorem keyTable_chunk4 : ∀ i, i < 32 →
    digestKey (digestF (inputAt (i + 128))) = keyTable.getD (i + 128) 0 := by
  decide!

set_option maxRecDepth 100000 in
/-- The evaluator yields the tabulated leading words for inputs 160 to 191. -/
theorem keyTable_chunk5 : ∀ i, i < 32 →
    digestKey (digestF (inputAt (i + 160))) = keyTable.getD (i + 160) 0 := by
  decide!

set_option maxRecDepth 100000 in
/-- The evaluator yields the tabulated leading words for inputs 192 to 223. -/
theorem keyTable_chunk6 : ∀ i, i < 32 →
    digestKey (digestF (inputAt (i + 192))) = keyTable.getD (i + 192) 0 := by
  decide!

set_option maxRecDepth 100000 in
/-- The evaluator yields the tabulated leading words for inputs 224 to 255. -/
theorem keyTable_chunk7 : ∀ i, i < 32 →
    digestKey (digestF (inputAt (i + 224))) = keyTable.getD (i + 224) 0 := by
  decide!

set_option maxRecDepth 100000 in
/-- The evaluator yields the tabulated leading word for input 256. -/
theorem keyTable_chunk8 : ∀ i, i < 1 →
    digestKey (digestF (inputAt (i + 256))) = keyTable.getD (i + 256) 0 := by
  decide!

set_option maxRecDepth 100000 in
/-- The tabulated leading words are pairwise distinct. -/
theorem keyTable_nodup : keyTable.Nodup := by
  decide!

set_option maxRecDepth 100000 in
/-- The table has one entry for each input of at most one byte. -/
theorem keyTable_length : keyTable.length = 257 := by
  decide!

/-- The evaluator yields the tabulated leading word for each of the 257 inputs. -/
theorem keyTable_spec (i : Nat) (h : i < 257) :
    digestKey (digestF (inputAt i)) = keyTable.getD i 0 := by
  by_cases h0 : i < 32
  · simpa using keyTable_chunk0 i h0
  by_cases h1 : i < 64
  · have := keyTable_chunk1 (i - 32) (by omega)
    rwa [Nat.sub_add_cancel (by omega)] at this
  by_cases h2 : i < 96
  · have := keyTable_chunk2 (i - 64) (by omega)
    rwa [Nat.sub_add_cancel (by omega)] at this
  by_cases h3 : i < 128
  · have := keyTable_chunk3 (i - 96) (by omega)
    rwa [Nat.sub_add_cancel (by omega)] at this
  by_cases h4 : i < 160
  · have := keyTable_chunk4 (i - 128) (by omega)
    rwa [Nat.sub_add_cancel (by omega)] at this
  by_cases h5 : i < 192
  · have := keyTable_chunk5 (i - 160) (by omega)
    rwa [Nat.sub_add_cancel (by omega)] at this
  by_cases h6 : i < 224
  · have := keyTable_chunk6 (i - 192) (by omega)
    rwa [Nat.sub_add_cancel (by omega)] at this
  by_cases h7 : i < 256
  · have := keyTable_chunk7 (i - 224) (by omega)
    rwa [Nat.sub_add_cancel (by omega)] at this
  · have := keyTable_chunk8 (i - 256) (by omega)
    rwa [Nat.sub_add_cancel (by omega)] at this

/-- Every input of at most one byte has a number below 257. -/
theorem exists_inputAt (a : List Byte) (h : a.length ≤ 1) : ∃ i, i < 257 ∧ a = inputAt i := by
  match a, h with
  | [], _ => exact ⟨0, by omega, rfl⟩
  | [x], _ =>
    refine ⟨x.val + 1, by omega, ?_⟩
    simp [inputAt, byte, Nat.mod_eq_of_lt x.isLt]
  | _ :: _ :: _, h => simp at h

/-- Two inputs of at most one byte whose digests start with the same word are equal. -/
theorem eq_of_digestKey_eq (a b : List Byte) (ha : a.length ≤ 1) (hb : b.length ≤ 1)
    (h : digestKey (digestF a) = digestKey (digestF b)) : a = b := by
  obtain ⟨i, hi, rfl⟩ := exists_inputAt a ha
  obtain ⟨j, hj, rfl⟩ := exists_inputAt b hb
  rw [keyTable_spec i hi, keyTable_spec j hj] at h
  have hi2 : i < keyTable.length := by rw [keyTable_length]; exact hi
  have hj2 : j < keyTable.length := by rw [keyTable_length]; exact hj
  rw [List.getD_eq_getElem _ _ hi2, List.getD_eq_getElem _ _ hj2] at h
  rw [(List.Nodup.getElem_inj_iff keyTable_nodup).mp h]

/-- C10 (amended): any two distinct byte sequences of at most one byte (the
empty sequence and the 256 single bytes, 32896 pairs) have distinct digests. -/
theorem SHA256_distinct_short (a b : List Byte) (ha : a.length ≤ 1) (hb : b.length ≤ 1)
    (hne : a ≠ b) : SHA256 a ≠ SHA256 b := by
  intro heq
  rw [SHA256_eq_digestF a (by omega), SHA256_eq_digestF b (by omega)] at heq
  exact hne (eq_of_digestKey_eq a b ha hb (congrArg digestKey (Option.some.inj heq)))

/-- Witness for C10 (amended) at the empty input and the single byte `0x61`. -/
theorem SHA256_distinct_short_witness : SHA256 [] ≠ SHA256 [byte 0x61] :=
  SHA256_distinct_short [] [byte 0x61] (by decide) (by decide) (by decide)

end Sha256
